import Mathlib

/-!
# Verification of the `clone` struct-verifier package

This file is a shallow embedding of the Go package `clone` (the struct
cloning verifier: `Verify`, `autoFill`, `structFields`, `autoChange`,
`EmbSetters`, `EmbChangers`) together with proofs about its behaviour.

Modelling decisions, recorded once here:

* Go slices and maps are reference values; structs under test are reached
  through a pointer returned by the creator function.  We model memory as a
  `Heap` (a list of objects, addresses are list indices).  A struct instance
  is the address of an `Obj.oStruct`; slice and map fields hold an
  `Option Addr` (`none` models a nil slice / nil map, the zero value).
  Cloner functions are arbitrary functions on `Heap × Addr`, which lets the
  embedding express aliasing (the identity cloner returns the same address,
  a shallow copy shares element addresses, a deep copy allocates).
* `int` and `int64` are modelled as `Int`.  In the mutators the source
  multiplies a field value of arbitrary magnitude by 2, where 64-bit
  wraparound matters; there the embedding applies `wrap64` explicitly.
  The generator counters (`i64v`, `intVal`, `nStrs`) start at 0/0/2 in
  every fresh `EmbSetters()` chain, and the source re-creates that chain
  inside the per-field loop of `autoFill`, so each counter is incremented
  at most once before its chain is discarded and wraparound is
  unreachable; they are modelled as exact integers.
* `map[string]any` values: every value the package ever stores in such a
  map is an `int` ((i+1)*3/2 in the embedded setter) and the embedded map
  changer asserts `int`; the embedding therefore specialises map values to
  `Int`.  A map object stores its entries as an association list built by
  Go-style insertion (`mapInsert`, replace-if-present), which keeps keys
  unique exactly as real Go maps do.  Go's randomised map iteration order
  is determinised to entry order; the `range ... break` in the embedded
  map changer therefore picks the first entry.
* `reflect.DeepEqual` is modelled by `deepEq`, which dereferences the heap:
  struct fields are compared pairwise (name and content), slices by their
  element lists (nil distinct from empty), maps by size plus key lookup.
* An out-of-range slice index or other fatal runtime fault is modelled by a
  distinguished `panicked` result, mirroring the fact that a Go panic
  escapes `Verify` instead of being turned into a taxonomy error.
-/

set_option autoImplicit false

namespace CloneVerif

/-- 64-bit two's-complement wraparound, as performed by Go `int`/`int64`
arithmetic. -/
def wrap64 (n : Int) : Int := (n + 2 ^ 63) % 2 ^ 64 - 2 ^ 63

/-- Heap addresses: indices into the heap's object list. -/
abbrev Addr := Nat

/-- The field categories occurring in the package: the six categories
claimed by the embedded setters/changers, plus `bool` as a representative
unsupported category. -/
inductive Ty where
  | tInt
  | tInt64
  | tIntSlice
  | tInt64Slice
  | tStrSlice
  | tMap
  | tBool
deriving DecidableEq, Repr

/-- Whether a category is claimed by the embedded handlers. -/
def Ty.supported : Ty → Bool
  | .tBool => false
  | _ => true

/-- A field value: scalars are immediate, slices and maps are references
(`none` is the nil slice / nil map zero value). -/
inductive Value where
  | vInt (n : Int)
  | vInt64 (n : Int)
  | vIntSlice (a : Option Addr)
  | vInt64Slice (a : Option Addr)
  | vStrSlice (a : Option Addr)
  | vMap (a : Option Addr)
  | vBool (b : Bool)
deriving DecidableEq, Repr

/-- The zero value of each category (what the creator's fresh instance
holds before `autoFill` assigns the field). -/
def Ty.zeroValue : Ty → Value
  | .tInt => .vInt 0
  | .tInt64 => .vInt64 0
  | .tIntSlice => .vIntSlice none
  | .tInt64Slice => .vInt64Slice none
  | .tStrSlice => .vStrSlice none
  | .tMap => .vMap none
  | .tBool => .vBool false

/-- A heap object: backing storage of a slice of integers (used for both
`[]int` and `[]int64`, the field value records the static type), of a
`[]string`, of a `map[string]any`, or a struct instance. -/
inductive Obj where
  | oInts (xs : List Int)
  | oStrs (xs : List String)
  | oMap (es : List (String × Int))
  | oStruct (fs : List (String × Value))
deriving DecidableEq, Repr

/-- The heap: objects indexed by address. -/
abbrev Heap := List Obj

/-- Address lookup. -/
def hGet (h : Heap) (a : Addr) : Option Obj := h.get? a

/-- In-place update of the object at an address. -/
def hSet (h : Heap) (a : Addr) (o : Obj) : Heap := h.set a o

/-- Allocation: append the object, its address is the old heap length. -/
def hAlloc (h : Heap) (o : Obj) : Heap × Addr := (h ++ [o], h.length)

/-- Go-style map insertion `m[k] = v`: replace the value in place if the
key is present, otherwise append the entry. -/
def mapInsert (m : List (String × Int)) (k : String) (v : Int) :
    List (String × Int) :=
  match m with
  | [] => [(k, v)]
  | (k', v') :: rest =>
      if k' = k then (k, v) :: rest else (k', v') :: mapInsert rest k v

/-- Build a map by a sequence of Go-style insertions. -/
def mapInsertAll (m : List (String × Int)) (es : List (String × Int)) :
    List (String × Int) :=
  es.foldl (fun acc kv => mapInsert acc kv.1 kv.2) m

/-- First value stored under a key. -/
def mapLookup (m : List (String × Int)) (k : String) : Option Int :=
  match m with
  | [] => none
  | (k', v') :: rest => if k' = k then some v' else mapLookup rest k

/-- `reflect.DeepEqual` on two map representations: equal size, and every
entry of the first is mapped to the same value by the second.  (For real
Go maps, whose keys are unique, this coincides with mutual inclusion.) -/
def mapEqB (m1 m2 : List (String × Int)) : Bool :=
  m1.length == m2.length &&
    m1.all (fun kv => mapLookup m2 kv.1 == some kv.2)

/-- Dereferenced content of a field value: what `reflect.DeepEqual`
actually compares after following slice/map references. -/
inductive CVal where
  | cInt (n : Int)
  | cInt64 (n : Int)
  | cIntSlice (xs : Option (List Int))
  | cInt64Slice (xs : Option (List Int))
  | cStrSlice (xs : Option (List String))
  | cMap (es : Option (List (String × Int)))
  | cBool (b : Bool)
deriving DecidableEq, Repr

/-- Element list of an integer-slice object (the default `[]` is only
reached through dangling addresses, which no run of the package creates). -/
def intsAt (h : Heap) (a : Addr) : List Int :=
  match hGet h a with
  | some (.oInts xs) => xs
  | _ => []

/-- Element list of a string-slice object. -/
def strsAt (h : Heap) (a : Addr) : List String :=
  match hGet h a with
  | some (.oStrs xs) => xs
  | _ => []

/-- Entry list of a map object. -/
def mapAt (h : Heap) (a : Addr) : List (String × Int) :=
  match hGet h a with
  | some (.oMap es) => es
  | _ => []

/-- Dereference a field value in a heap. -/
def readVal (h : Heap) : Value → CVal
  | .vInt n => .cInt n
  | .vInt64 n => .cInt64 n
  | .vIntSlice none => .cIntSlice none
  | .vIntSlice (some a) => .cIntSlice (some (intsAt h a))
  | .vInt64Slice none => .cInt64Slice none
  | .vInt64Slice (some a) => .cInt64Slice (some (intsAt h a))
  | .vStrSlice none => .cStrSlice none
  | .vStrSlice (some a) => .cStrSlice (some (strsAt h a))
  | .vMap none => .cMap none
  | .vMap (some a) => .cMap (some (mapAt h a))
  | .vBool b => .cBool b

/-- Read a whole struct instance: its field names with dereferenced
contents. -/
def readStruct (h : Heap) (a : Addr) : Option (List (String × CVal)) :=
  match hGet h a with
  | some (.oStruct fs) => some (fs.map (fun nv => (nv.1, readVal h nv.2)))
  | _ => none

/-- `reflect.DeepEqual` on two dereferenced contents. -/
def cvalEq : CVal → CVal → Bool
  | .cMap (some m1), .cMap (some m2) => mapEqB m1 m2
  | .cMap none, .cMap none => true
  | .cMap _, .cMap _ => false
  | c1, c2 => c1 == c2

/-- `reflect.DeepEqual` on two field lists (same names in the same order,
deep-equal contents). -/
def cfieldsEq : List (String × CVal) → List (String × CVal) → Bool
  | [], [] => true
  | (n1, c1) :: r1, (n2, c2) :: r2 =>
      n1 == n2 && cvalEq c1 c2 && cfieldsEq r1 r2
  | _, _ => false

/-- `reflect.DeepEqual` applied to two struct pointers (as `Verify` does
with `orig`, `ref` and `clone`). -/
def deepEq (h : Heap) (a b : Addr) : Bool :=
  match readStruct h a, readStruct h b with
  | some c1, some c2 => cfieldsEq c1 c2
  | _, _ => false

/-! ## Field enumeration (`structFields`) and visibility -/

/-- The package's visibility test: a field is skipped when its name starts
with `_` or a lowercase ASCII letter (`name[0]` in the source; Go field
names are non-empty ASCII identifiers, so first byte and first character
coincide; the empty-name case is unreachable). -/
def isExported (s : String) : Bool :=
  match s.data with
  | [] => true
  | c :: _ => !(c == '_' || ('a' ≤ c && c ≤ 'z'))

/-- The accumulator loop of `structFields` (`fields = append(fields, name)`
over the fields in declaration order, skipping unexported names). -/
def structFieldsLoop (acc : List String) : List (String × Ty) → List String
  | [] => acc
  | (n, _) :: rest =>
      structFieldsLoop (if isExported n then acc ++ [n] else acc) rest

/-- `structFields`: the exported field names of a record type, in
declaration order.  (The source enumerates the fields of an instance
produced by the creator; the embedding reads the record type directly,
which carries the same name/type information.) -/
def structFields (ty : List (String × Ty)) : List String :=
  structFieldsLoop [] ty

/-! ## Embedded setters (`EmbSetters`) -/

/-- `initialSeed` from the source. -/
def initialSeed : Int := 2

/-- A value as produced by a setter, before the engine stores it in the
field (reference categories are then allocated as fresh heap objects,
mirroring the `make` in the Go setters). -/
inductive PureVal where
  | pInt (n : Int)
  | pInt64 (n : Int)
  | pIntSlice (xs : List Int)
  | pInt64Slice (xs : List Int)
  | pStrSlice (xs : List String)
  | pMap (es : List (String × Int))
  | pBool (b : Bool)
deriving DecidableEq, Repr

/-- The closure state shared by the embedded setters of one `EmbSetters()`
call: `var i64v int64`, `var intVal int`, `nStrs := int(initialSeed)`. -/
structure EmbSt where
  i64v : Int
  intVal : Int
  nStrs : Int
deriving DecidableEq, Repr

/-- Initial state of a fresh `EmbSetters()` chain. -/
def embInit : EmbSt := ⟨0, 0, 2⟩

/-- `strings.Repeat s n`. -/
def strRepeat (s : String) : Nat → String
  | 0 => ""
  | n + 1 => s ++ strRepeat s n

/-- `fmt.Sprintf("%c", ('a' - initialSeed) + nStrs % ('z'-'a'))`:
the base character used by the `[]string` and map setters
(`nStrs ≥ 2` always, so the code point is in `[95, 119]`). -/
def baseCharOf (nStrs : Int) : String :=
  String.singleton (Char.ofNat (97 - 2 + nStrs % 25).toNat)

/-- A single embedded setter: given the shared closure state and the
field's runtime category, either decline (`nil` in Go) or produce a value
and the updated state. -/
abbrev EmbSetter := EmbSt → Ty → Option (PureVal × EmbSt)

/-- Embedded `int` setter: `intVal++; return intVal`. -/
def embSetInt : EmbSetter := fun st t =>
  match t with
  | .tInt => some (.pInt (st.intVal + 1), { st with intVal := st.intVal + 1 })
  | _ => none

/-- Embedded `int64` setter: `i64v++; return i64v`. -/
def embSetInt64 : EmbSetter := fun st t =>
  match t with
  | .tInt64 => some (.pInt64 (st.i64v + 1), { st with i64v := st.i64v + 1 })
  | _ => none

/-- Embedded `[]int` setter: `intVal++; l := intVal * initialSeed;`
elements `intVal + i` for `i < l`. -/
def embSetIntSlice : EmbSetter := fun st t =>
  match t with
  | .tIntSlice =>
      let n := st.intVal + 1
      some (.pIntSlice ((List.range (n * initialSeed).toNat).map
              (fun (i : Nat) => n + (i : Int))),
            { st with intVal := n })
  | _ => none

/-- Embedded `[]int64` setter: `i64v++; l := i64v * initialSeed;`
elements `i64v + i` for `i < l`. -/
def embSetInt64Slice : EmbSetter := fun st t =>
  match t with
  | .tInt64Slice =>
      let n := st.i64v + 1
      some (.pInt64Slice ((List.range (n * initialSeed).toNat).map
              (fun (i : Nat) => n + (i : Int))),
            { st with i64v := n })
  | _ => none

/-- Embedded `[]string` setter: `nStrs` copies of
`strings.Repeat(baseChar+"_", nStrs)`, then `nStrs++`. -/
def embSetStrSlice : EmbSetter := fun st t =>
  match t with
  | .tStrSlice =>
      some (.pStrSlice (List.replicate st.nStrs.toNat
              (strRepeat (baseCharOf st.nStrs ++ "_") st.nStrs.toNat)),
            { st with nStrs := st.nStrs + 1 })
  | _ => none

/-- Embedded `map[string]any` setter: entries
`m[strings.Repeat(baseChar+"_", nStrs+i)] = (i+1) * 3 / 2` for
`i < nStrs`, then `nStrs++`. -/
def embSetMap : EmbSetter := fun st t =>
  match t with
  | .tMap =>
      some (.pMap ((List.range st.nStrs.toNat).map
              (fun (i : Nat) => (strRepeat (baseCharOf st.nStrs ++ "_")
                           (st.nStrs.toNat + i),
                         ((i : Int) + 1) * 3 / 2))),
            { st with nStrs := st.nStrs + 1 })
  | _ => none

/-- Try a list of embedded setters in order; the first non-`nil` result
wins and only the matching setter's state update takes effect (each Go
setter mutates its counters only after its type assertion succeeds). -/
def trySetterList : List EmbSetter → EmbSt → Ty → Option (PureVal × EmbSt)
  | [], _, _ => none
  | s :: rest, st, t =>
      match s st t with
      | some r => some r
      | none => trySetterList rest st t

/-- The embedded setter chain, in the registration order of
`EmbSetters()`. -/
def embSetters : List EmbSetter :=
  [embSetInt, embSetInt64, embSetIntSlice, embSetInt64Slice,
   embSetStrSlice, embSetMap]

/-- One step of the embedded chain. -/
def embTry (st : EmbSt) (t : Ty) : Option (PureVal × EmbSt) :=
  trySetterList embSetters st t

/-- A user-supplied setter chain, abstracted as one stateful machine.
`init` models the per-`autoFill` rebuild of the chain (each registered
`SetterCreator` is invoked afresh, resetting its closure state), `step`
the attempt of the user setters in registration order on one field (a
declining chain may still update its state, as Go closures could). -/
structure UserSC where
  σ : Type
  init : σ
  step : σ → Ty → Option PureVal × σ

/-- The empty user chain (no `AddSetters` call): always declines. -/
def noUserSetters : UserSC := ⟨Unit, (), fun _ _ => (none, ())⟩

/-- The generation pass of `autoFill`: walk the fields in declaration
order, skip unexported names, try the user chain then the embedded chain
on each remaining field; fail (`nil` from every setter) if no setter
claims a field's category.  Returns each field's generated value
(`none` marks a skipped unexported field).  The user chain is built once
per fill and its state `us` threads across fields, but the setter loop's
range expression `append(uSetters, EmbSetters()...)` re-creates the
embedded chain for every field, so each field's embedded attempt starts
from the fresh closure state `embInit` and the produced state is
discarded. -/
def genVals (u : UserSC) :
    u.σ → List (String × Ty) →
    Option (List (String × Ty × Option PureVal))
  | _, [] => some []
  | us, (n, t) :: rest =>
      if isExported n then
        match u.step us t with
        | (some p, us') =>
            (genVals u us' rest).map (fun l => (n, t, some p) :: l)
        | (none, us') =>
            match embTry embInit t with
            | some (p, _) =>
                (genVals u us' rest).map (fun l => (n, t, some p) :: l)
            | none => none
      else
        (genVals u us rest).map (fun l => (n, t, none) :: l)

/-- Store a setter-produced value: reference categories allocate a fresh
heap object (the `make` inside the Go setter); a map object is built by
Go-style insertion of the setter's entries. -/
def allocPure (h : Heap) : PureVal → Heap × Value
  | .pInt n => (h, .vInt n)
  | .pInt64 n => (h, .vInt64 n)
  | .pIntSlice xs =>
      let (h', a) := hAlloc h (.oInts xs); (h', .vIntSlice (some a))
  | .pInt64Slice xs =>
      let (h', a) := hAlloc h (.oInts xs); (h', .vInt64Slice (some a))
  | .pStrSlice xs =>
      let (h', a) := hAlloc h (.oStrs xs); (h', .vStrSlice (some a))
  | .pMap es =>
      let (h', a) := hAlloc h (.oMap (mapInsertAll [] es)); (h', .vMap (some a))
  | .pBool b => (h, .vBool b)

/-- The storing pass of `autoFill`: allocate and assign the generated
values field by field (`f.Set(reflect.ValueOf(v))`), keeping the zero
value on skipped fields. -/
def allocFields (h : Heap) :
    List (String × Ty × Option PureVal) → Heap × List (String × Value)
  | [] => (h, [])
  | (n, t, none) :: rest =>
      let (h', fs) := allocFields h rest
      (h', (n, t.zeroValue) :: fs)
  | (n, _, some p) :: rest =>
      let (h1, v) := allocPure h p
      let (h2, fs) := allocFields h1 rest
      (h2, (n, v) :: fs)

/-- `autoFill`: create a zero instance via the creator, then generate and
assign a value for every exported field, trying user setters before the
embedded ones.  Returns the filled instance, or `none` when a field's
category is claimed by no setter.  (The source interleaves generation and
assignment in one loop; since setters never read the heap, generating all
values first and then storing them is observationally the same and the
allocation order of the objects is preserved.) -/
def autoFill (u : UserSC) (ty : List (String × Ty)) (h : Heap) :
    Option (Heap × Addr) :=
  let (h0, a) := hAlloc h (.oStruct (ty.map (fun nt => (nt.1, nt.2.zeroValue))))
  match genVals u u.init ty with
  | none => none
  | some gs =>
      let (h1, fs) := allocFields h0 gs
      some (hSet h1 a (.oStruct fs), a)

/-! ## Embedded changers (`EmbChangers`) and `autoChange` -/

/-- Result of applying one changer to a field: decline (`false` in Go),
success (`true`, with the possibly updated heap and the possibly rewritten
field value), or a runtime panic (out-of-range slice index). -/
inductive CRes where
  | declined
  | ok (h : Heap) (v : Value)
  | panicked
deriving DecidableEq, Repr

/-- A changer: stateless, tried on the reflected field value. -/
abbrev Changer := Heap → Value → CRes

/-- Embedded `int` changer: `v.Set(reflect.ValueOf(iv * initialSeed))`
(64-bit wraparound multiplication, written back through the field
handle). -/
def chInt : Changer := fun h v =>
  match v with
  | .vInt n => .ok h (.vInt (wrap64 (n * initialSeed)))
  | _ => .declined

/-- Embedded `int64` changer: multiply the value by `initialSeed`. -/
def chInt64 : Changer := fun h v =>
  match v with
  | .vInt64 n => .ok h (.vInt64 (wrap64 (n * initialSeed)))
  | _ => .declined

/-- `is[len(is)-1] *= initialSeed` on an integer-slice object: multiply
the last element in place; on an empty (or nil) slice the index is out of
range and Go panics. -/
def mulLastInts (h : Heap) (a : Option Addr) (v : Value) : CRes :=
  match a with
  | none => .panicked
  | some addr =>
      match hGet h addr with
      | some (.oInts xs) =>
          match xs.get? (xs.length - 1) with
          | some x =>
              .ok (hSet h addr
                     (.oInts (xs.set (xs.length - 1) (wrap64 (x * initialSeed)))))
                  v
          | none => .panicked
      | _ => .panicked

/-- Embedded `[]int` changer. -/
def chIntSlice : Changer := fun h v =>
  match v with
  | .vIntSlice a => mulLastInts h a v
  | _ => .declined

/-- Embedded `[]int64` changer. -/
def chInt64Slice : Changer := fun h v =>
  match v with
  | .vInt64Slice a => mulLastInts h a v
  | _ => .declined

/-- Embedded `[]string` changer: `ss[len(ss)-1] += ss[len(ss)-1]`
(concatenate the last element with itself in place). -/
def chStrSlice : Changer := fun h v =>
  match v with
  | .vStrSlice none => .panicked
  | .vStrSlice (some addr) =>
      match hGet h addr with
      | some (.oStrs xs) =>
          match xs.get? (xs.length - 1) with
          | some x => .ok (hSet h addr (.oStrs (xs.set (xs.length - 1) (x ++ x)))) v
          | none => .panicked
      | _ => .panicked
  | _ => .declined

/-- Embedded `map[string]any` changer: `range` over the map and update the
first visited entry's value (`m[k] = v.(int) * initialSeed`), then `break`;
on a nil or empty map the loop body never runs and the changer still
reports success. -/
def chMap : Changer := fun h v =>
  match v with
  | .vMap none => .ok h v
  | .vMap (some addr) =>
      match hGet h addr with
      | some (.oMap es) =>
          match es with
          | [] => .ok h v
          | (k, n) :: rest =>
              .ok (hSet h addr (.oMap ((k, wrap64 (n * initialSeed)) :: rest))) v
      | _ => .panicked
  | _ => .declined

/-- The embedded changer chain, in the registration order of
`EmbChangers()`. -/
def embChangers : List Changer :=
  [chInt, chInt64, chIntSlice, chInt64Slice, chStrSlice, chMap]

/-- Try a list of changers in order; the first changer that does not
decline stops the search. -/
def tryChangers : List Changer → Heap → Value → CRes
  | [], _, _ => .declined
  | c :: rest, h, v =>
      match c h v with
      | .declined => tryChangers rest h v
      | r => r

/-- Result of `autoChange`. -/
inductive ACRes where
  | ok (h : Heap)
  | errChange
  | errFieldNotFound
  | panicked
deriving DecidableEq, Repr

/-- First field index with the given name. -/
def findFieldIdx (fs : List (String × Value)) (field : String) : Option Nat :=
  fs.findIdx? (fun nv => nv.1 = field)

/-- `autoChange(si, field)`: locate the named field on the instance, try
the user changers then the embedded changers in order; the first success
wins and its rewritten value is stored back in the field slot (the slot
write is the scalar changers' `v.Set`; slice/map changers return the field
value unchanged, so for them the write-back is a no-op).  No changer
claiming the field's category yields the unsupported-type error; a name
matching no field yields the not-found error. -/
def autoChange (uch : List Changer) (h : Heap) (a : Addr) (field : String) :
    ACRes :=
  match hGet h a with
  | some (.oStruct fs) =>
      match findFieldIdx fs field with
      | some i =>
          match fs.get? i with
          | some (n, v) =>
              match tryChangers (uch ++ embChangers) h v with
              | .ok h' v' => .ok (hSet h' a (.oStruct (fs.set i (n, v'))))
              | .declined => .errChange
              | .panicked => .panicked
          | none => .errFieldNotFound
      | none => .errFieldNotFound
  | _ => .errFieldNotFound

/-! ## The verification engine (`Verify`) -/

/-- A cloner: the user function under test.  It receives the original
instance's address and returns a clone's address, possibly allocating
(deep copy), possibly returning the argument itself (identity), possibly
sharing element objects (shallow copy). -/
abbrev Cloner := Heap → Addr → Heap × Addr

/-- The outcome of `Verify`, one case per error-taxonomy entry of the
package (field-indexed cases carry the field being processed).  `panicked`
models a Go panic escaping the run. -/
inductive VRes where
  | ok
  | errOrigFill
  | errRefFill
  | errRefOrigEqual
  | errCloneOrigNotEqual (field : String)
  | errChange (field : String)
  | errOrigChanged (field : String)
  | errCloneOrigEqual (field : String)
  | panicked
deriving DecidableEq, Repr

/-- The per-field loop of `Verify`: clone the original, require the clone
to be deep-equal to the original immediately after copying, mutate the
named field in the clone, require the original still deep-equal to the
reference, require the clone to now differ from the original.  Both
`autoChange` failure cases are wrapped as the `Change` error, as in the
source. -/
def verifyFields (uch : List Changer) (cloner : Cloner) (orig ref : Addr) :
    Heap → List String → VRes
  | _, [] => .ok
  | h, f :: rest =>
      let (h1, clone) := cloner h orig
      if !deepEq h1 orig clone then .errCloneOrigNotEqual f
      else
        match autoChange uch h1 clone f with
        | .errChange => .errChange f
        | .errFieldNotFound => .errChange f
        | .panicked => .panicked
        | .ok h2 =>
            if !deepEq h2 orig ref then .errOrigChanged f
            else if deepEq h2 orig clone then .errCloneOrigEqual f
            else verifyFields uch cloner orig ref h2 rest

/-- `Verify`: fill an original and a reference instance with two fresh
generator chains, require them deep-equal, then run the per-field loop
over the exported fields in declaration order. -/
def Verify (ty : List (String × Ty)) (u : UserSC) (uch : List Changer)
    (cloner : Cloner) : VRes :=
  match autoFill u ty [] with
  | none => .errOrigFill
  | some (h1, orig) =>
      match autoFill u ty h1 with
      | none => .errRefFill
      | some (h2, ref) =>
          if !deepEq h2 orig ref then .errRefOrigEqual
          else verifyFields uch cloner orig ref h2 (structFields ty)

/-! ## Cloners used in the claims -/

/-- The identity cloner: returns its argument unchanged (`return x`), so
the "clone" is the very same instance. -/
def idCloner : Cloner := fun h a => (h, a)

/-- Deep copy of one field value: allocate a fresh object with the same
contents for each reference category. -/
def deepCopyVal (h : Heap) (v : Value) : Heap × Value :=
  match v with
  | .vIntSlice (some a) =>
      let (h', b) := hAlloc h (.oInts (intsAt h a)); (h', .vIntSlice (some b))
  | .vInt64Slice (some a) =>
      let (h', b) := hAlloc h (.oInts (intsAt h a)); (h', .vInt64Slice (some b))
  | .vStrSlice (some a) =>
      let (h', b) := hAlloc h (.oStrs (strsAt h a)); (h', .vStrSlice (some b))
  | .vMap (some a) =>
      let (h', b) := hAlloc h (.oMap (mapAt h a)); (h', .vMap (some b))
  | v => (h, v)

/-- Deep copy of a field list. -/
def deepCopyFields (h : Heap) : List (String × Value) → Heap × List (String × Value)
  | [] => (h, [])
  | (n, v) :: rest =>
      let (h1, v') := deepCopyVal h v
      let (h2, fs) := deepCopyFields h1 rest
      (h2, (n, v') :: fs)

/-- A correct deep-copy cloner: fresh storage for every reference field,
same contents.  (On a non-struct argument it degenerates to the identity;
`Verify` only ever passes instances.) -/
def deepCloner : Cloner := fun h a =>
  match hGet h a with
  | some (.oStruct fs) =>
      let (h1, fs') := deepCopyFields h fs
      hAlloc h1 (.oStruct fs')
  | _ => (h, a)

/-- The cloner of concrete scenario 4 for the record `{S []string}`:
allocate new backing storage of the same length but never copy the
elements (`make([]string, len(orig.S))` without `copy`), and return a new
instance whose `S` refers to it. -/
def makeNoCopyCloner : Cloner := fun h a =>
  match hGet h a with
  | some (.oStruct fs) =>
      match fs with
      | [(n, .vStrSlice (some b))] =>
          let (h1, c) := hAlloc h (.oStrs (List.replicate (strsAt h b).length ""))
          hAlloc h1 (.oStruct [(n, .vStrSlice (some c))])
      | _ => (h, a)
  | _ => (h, a)

/-- A destructive "cloner" that truncates the slice object at address 1
(the original's only slice field, for a freshly filled one-field record)
and returns the original itself. -/
def truncCloner : Cloner := fun h a => (hSet h 1 (.oInts []), a)

/-- A user setter chain producing an empty map for every map field and
declining everything else. -/
def emptyMapSetter : UserSC :=
  ⟨Unit, (), fun _ t => (if t = .tMap then some (.pMap []) else none, ())⟩

/-- Invariant of the embedded setter chain's closure state: the two
integer counters never go below their initial 0 and `nStrs` never goes
below its initial `initialSeed = 2`. -/
def StOK (est : EmbSt) : Prop :=
  0 ≤ est.i64v ∧ 0 ≤ est.intVal ∧ 2 ≤ est.nStrs

/-- Shape facts about every value an embedded setter produces (from a
state satisfying `StOK`): positive scalars, sequences of length at least
2 whose last element is a positive integer / non-empty string, maps of
size at least 2 with pairwise distinct keys and positive integer
values. -/
def PvalShape : Ty → PureVal → Prop
  | .tInt, .pInt n => 1 ≤ n
  | .tInt64, .pInt64 n => 1 ≤ n
  | .tIntSlice, .pIntSlice xs =>
      2 ≤ xs.length ∧ ∃ x, xs.get? (xs.length - 1) = some x ∧ 1 ≤ x
  | .tInt64Slice, .pInt64Slice xs =>
      2 ≤ xs.length ∧ ∃ x, xs.get? (xs.length - 1) = some x ∧ 1 ≤ x
  | .tStrSlice, .pStrSlice xs =>
      2 ≤ xs.length ∧ ∃ s, xs.get? (xs.length - 1) = some s ∧ s ≠ ""
  | .tMap, .pMap es =>
      2 ≤ es.length ∧ (es.map Prod.fst).Nodup ∧ ∀ kv ∈ es, 1 ≤ kv.2
  | _, _ => False

/-- The reference address held by a field value, if any. -/
def vAddr : Value → Option Addr
  | .vIntSlice (some a) => some a
  | .vInt64Slice (some a) => some a
  | .vStrSlice (some a) => some a
  | .vMap (some a) => some a
  | _ => none

/-- The field value's reference address (if any) lies in `[lo, hi)`. -/
def AddrIn (lo hi : Nat) (v : Value) : Prop :=
  ∀ a, vAddr v = some a → lo ≤ a ∧ a < hi

/-- Uniqueness of map keys inside a dereferenced content (automatic for
every content this package creates, since maps are built by insertion). -/
def CValUniq : CVal → Prop
  | .cMap (some m) => (m.map Prod.fst).Nodup
  | _ => True

/-- The dereferenced content a stored setter value will have. -/
def pureCVal : PureVal → CVal
  | .pInt n => .cInt n
  | .pInt64 n => .cInt64 n
  | .pIntSlice xs => .cIntSlice (some xs)
  | .pInt64Slice xs => .cInt64Slice (some xs)
  | .pStrSlice xs => .cStrSlice (some xs)
  | .pMap es => .cMap (some (mapInsertAll [] es))
  | .pBool b => .cBool b

/-- The dereferenced content of a zero value. -/
def zeroCVal : Ty → CVal
  | .tInt => .cInt 0
  | .tInt64 => .cInt64 0
  | .tIntSlice => .cIntSlice none
  | .tInt64Slice => .cInt64Slice none
  | .tStrSlice => .cStrSlice none
  | .tMap => .cMap none
  | .tBool => .cBool false

/-- The content a field ends up with after `autoFill` (zero value for
skipped fields, setter value otherwise). -/
def gContent (g : String × Ty × Option PureVal) : CVal :=
  match g.2.2 with
  | none => zeroCVal g.2.1
  | some p => pureCVal p

/-- The relation between a stored field and its generation record. -/
def FieldSpec (lo hi : Nat) (h : Heap) (nv : String × Value)
    (g : String × Ty × Option PureVal) : Prop :=
  nv.1 = g.1 ∧ AddrIn lo hi nv.2 ∧ readVal h nv.2 = gContent g

/-- Safety of a dereferenced content for the embedded changers: a slice
content must be a non-nil, non-empty sequence (the mutators index the last
element without a guard); a map content may be nil but a non-nil map must
be non-empty (an empty map content cannot certify that the backing object
is really a map object). -/
def SafeC : CVal → Prop
  | .cIntSlice ob => ∃ xs, ob = some xs ∧ xs ≠ []
  | .cInt64Slice ob => ∃ xs, ob = some xs ∧ xs ≠ []
  | .cStrSlice ob => ∃ xs, ob = some xs ∧ xs ≠ []
  | .cMap ob => ob = none ∨ ∃ m, ob = some m ∧ m ≠ []
  | _ => True

/-- Safety of a field value for the embedded changers: slice values point
at a non-empty element object, map values are nil or point at a non-empty
map object; scalars are always safe. -/
def SafeVal (h : Heap) : Value → Prop
  | .vIntSlice ob => ∃ b, ob = some b ∧ intsAt h b ≠ []
  | .vInt64Slice ob => ∃ b, ob = some b ∧ intsAt h b ≠ []
  | .vStrSlice ob => ∃ b, ob = some b ∧ strsAt h b ≠ []
  | .vMap ob => ob = none ∨
      ∃ b es, ob = some b ∧ hGet h b = some (.oMap es) ∧ es ≠ []
  | _ => True

/-- Two objects of the same kind and (for element carriers) the same
size. -/
def objCompat : Obj → Obj → Prop
  | .oInts xs, .oInts xs' => xs.length = xs'.length
  | .oStrs xs, .oStrs xs' => xs.length = xs'.length
  | .oMap es, .oMap es' => es.length = es'.length
  | .oStruct _, .oStruct _ => True
  | _, _ => False

/-- A heap evolution step that rewrites at most one object, kind- and
size-preservingly. -/
def HeapStep (h h' : Heap) : Prop :=
  h' = h ∨ ∃ b o o', hGet h b = some o ∧ h' = hSet h b o' ∧ objCompat o o'

/-- The exact write discipline of a successful embedded changer: no write,
or one same-size write to an element object (never to a struct). -/
def ChangerStep (h h' : Heap) : Prop :=
  h' = h ∨ ∃ b,
    (∃ xs xs', hGet h b = some (.oInts xs) ∧ xs.length = xs'.length ∧
      h' = hSet h b (.oInts xs')) ∨
    (∃ xs xs', hGet h b = some (.oStrs xs) ∧ xs.length = xs'.length ∧
      h' = hSet h b (.oStrs xs')) ∨
    (∃ es es', hGet h b = some (.oMap es) ∧ es.length = es'.length ∧
      h' = hSet h b (.oMap es'))

/-- The run invariant of the per-field loop: the original is a struct all
of whose exported fields hold safe contents. -/
def InvAt (h : Heap) (orig : Addr) : Prop :=
  ∃ ofs, hGet h orig = some (.oStruct ofs) ∧
    ∀ nv ∈ ofs, isExported nv.1 = true → SafeC (readVal h nv.2)

/-! ## Basic lemmas: heap access, deep equality, maps, wraparound -/

theorem hSet_length (h : Heap) (a : Addr) (o : Obj) :
    (hSet h a o).length = h.length := List.length_set h a o

theorem hGet_append_left {h : Heap} (e : Heap) {a : Addr} (ha : a < h.length) :
    hGet (h ++ e) a = hGet h a := List.get?_append ha

theorem hGet_concat_self (h : Heap) (o : Obj) :
    hGet (h ++ [o]) h.length = some o := List.get?_concat_length h o

theorem hGet_set_ne (h : Heap) (a b : Addr) (o : Obj) (hne : a ≠ b) :
    hGet (hSet h a o) b = hGet h b := List.get?_set_ne o h hne

theorem hGet_set_self {h : Heap} {a : Addr} (o : Obj) (ha : a < h.length) :
    hGet (hSet h a o) a = some o := by
  show (h.set a o).get? a = some o
  rw [List.get?_eq_getElem?]
  exact List.getElem?_set_self ha

theorem hGet_lt_length {h : Heap} {a : Addr} {o : Obj}
    (hget : hGet h a = some o) : a < h.length := by
  by_contra hcon
  have hnone : hGet h a = none := List.get?_eq_none.2 (Nat.le_of_not_lt hcon)
  rw [hnone] at hget
  exact Option.noConfusion hget



theorem AddrIn.mono {lo hi lo' hi' : Nat} {v : Value} (h : AddrIn lo hi v)
    (hlo : lo' ≤ lo) (hhi : hi ≤ hi') : AddrIn lo' hi' v := by
  intro a ha
  rcases h a ha with ⟨h1, h2⟩
  exact ⟨le_trans hlo h1, lt_of_lt_of_le h2 hhi⟩

/-- `readVal` only consults the heap at the value's reference address. -/
theorem readVal_congr {h h' : Heap} {v : Value}
    (hagree : ∀ a, vAddr v = some a → hGet h' a = hGet h a) :
    readVal h' v = readVal h v := by
  cases v with
  | vInt n => rfl
  | vInt64 n => rfl
  | vBool b => rfl
  | vIntSlice oa =>
      cases oa with
      | none => rfl
      | some a => simp [readVal, intsAt, hagree a rfl]
  | vInt64Slice oa =>
      cases oa with
      | none => rfl
      | some a => simp [readVal, intsAt, hagree a rfl]
  | vStrSlice oa =>
      cases oa with
      | none => rfl
      | some a => simp [readVal, strsAt, hagree a rfl]
  | vMap oa =>
      cases oa with
      | none => rfl
      | some a => simp [readVal, mapAt, hagree a rfl]

theorem wrap64_mul_two_ne {n : Int} (hn : 1 ≤ n) :
    wrap64 (n * initialSeed) ≠ n := by
  unfold wrap64 initialSeed
  omega

theorem wrap64_mul_two_ne_of_ne_zero {n : Int} (h0 : n ≠ 0)
    (hlo : -(2 ^ 63) ≤ n) (hhi : n < 2 ^ 63) :
    wrap64 (n * initialSeed) ≠ n := by
  unfold wrap64 initialSeed
  omega

/-! ### Map lemmas -/

theorem mapLookup_self_of_nodup {m : List (String × Int)}
    (hnd : (m.map Prod.fst).Nodup) :
    ∀ kv ∈ m, mapLookup m kv.1 = some kv.2 := by
  induction m with
  | nil => intro kv hm; cases hm
  | cons hd tl ih =>
      simp only [List.map_cons, List.nodup_cons] at hnd
      intro kv hm
      cases hm with
      | head => simp [mapLookup]
      | tail _ hkv =>
          have hne : hd.1 ≠ kv.1 := by
            intro heq
            exact hnd.1 (heq ▸ List.mem_map_of_mem Prod.fst hkv)
          simp only [mapLookup, if_neg hne]
          exact ih hnd.2 kv hkv

theorem mapEqB_refl {m : List (String × Int)}
    (hnd : (m.map Prod.fst).Nodup) : mapEqB m m = true := by
  unfold mapEqB
  rw [Bool.and_eq_true]
  refine ⟨beq_self_eq_true _, ?_⟩
  rw [List.all_eq_true]
  intro kv hkv
  rw [mapLookup_self_of_nodup hnd kv hkv]
  exact beq_self_eq_true _

theorem mapEqB_length {m1 m2 : List (String × Int)}
    (h : mapEqB m1 m2 = true) : m1.length = m2.length := by
  unfold mapEqB at h
  rw [Bool.and_eq_true] at h
  exact eq_of_beq h.1

theorem mapInsert_keys_sub (m : List (String × Int)) (k : String) (v : Int) :
    ∀ k', k' ∈ (mapInsert m k v).map Prod.fst → k' = k ∨ k' ∈ m.map Prod.fst := by
  induction m with
  | nil => intro k' hk'; simp [mapInsert] at hk'; exact Or.inl hk'
  | cons hd tl ih =>
      intro k' hk'
      by_cases hcase : hd.1 = k
      · simp [mapInsert, hcase] at hk'
        rcases hk' with h | h
        · exact Or.inl h
        · exact Or.inr (by simp [h])
      · simp [mapInsert, hcase] at hk'
        rcases hk' with h | h
        · exact Or.inr (by simp [h])
        · rcases ih k' (by simpa using h) with h' | h'
          · exact Or.inl h'
          · exact Or.inr (by simp [h'])

theorem mapInsert_nodup {m : List (String × Int)}
    (hnd : (m.map Prod.fst).Nodup) (k : String) (v : Int) :
    ((mapInsert m k v).map Prod.fst).Nodup := by
  induction m with
  | nil => simp [mapInsert]
  | cons hd tl ih =>
      simp only [List.map_cons, List.nodup_cons] at hnd
      by_cases hcase : hd.1 = k
      · simp only [mapInsert, if_pos hcase, List.map_cons, List.nodup_cons]
        exact ⟨hcase ▸ hnd.1, hnd.2⟩
      · simp only [mapInsert, if_neg hcase, List.map_cons, List.nodup_cons]
        refine ⟨?_, ih hnd.2⟩
        intro hmem
        rcases mapInsert_keys_sub tl k v hd.1 hmem with h | h
        · exact hcase h
        · exact hnd.1 h

theorem mapInsertAll_nodup {m : List (String × Int)}
    (hnd : (m.map Prod.fst).Nodup) (es : List (String × Int)) :
    ((mapInsertAll m es).map Prod.fst).Nodup := by
  induction es generalizing m with
  | nil => exact hnd
  | cons hd tl ih =>
      exact ih (mapInsert_nodup hnd hd.1 hd.2)

theorem mapInsert_of_not_mem {m : List (String × Int)} {k : String}
    (hk : k ∉ m.map Prod.fst) (v : Int) : mapInsert m k v = m ++ [(k, v)] := by
  induction m with
  | nil => rfl
  | cons hd tl ih =>
      obtain ⟨k', v'⟩ := hd
      have hne : k' ≠ k := by
        intro h
        exact hk (by simp [h])
      have hk' : k ∉ tl.map Prod.fst := by
        intro h
        exact hk (by simp [h])
      simp only [mapInsert, if_neg hne, List.cons_append, List.cons.injEq,
        true_and]
      exact ih hk'

/-- Building a map from entries with pairwise distinct keys, none of which
is already present, just appends the entries. -/
theorem mapInsertAll_of_nodup {es : List (String × Int)} :
    ∀ m : List (String × Int), (es.map Prod.fst).Nodup →
    (∀ k ∈ es.map Prod.fst, k ∉ m.map Prod.fst) →
    mapInsertAll m es = m ++ es := by
  induction es with
  | nil => intro m _ _; simp [mapInsertAll]
  | cons hd tl ih =>
      intro m hnd hdis
      simp only [List.map_cons, List.nodup_cons] at hnd
      have h1 : mapInsert m hd.1 hd.2 = m ++ [hd] :=
        mapInsert_of_not_mem (hdis hd.1 (by simp)) hd.2
      have h2 : ∀ k ∈ tl.map Prod.fst, k ∉ (m ++ [hd]).map Prod.fst := by
        intro k hk
        simp only [List.map_append, List.mem_append, List.map_cons,
          List.map_nil, List.mem_singleton, not_or]
        refine ⟨hdis k (by simp [hk]), ?_⟩
        intro hkk
        exact hnd.1 (hkk ▸ hk)
      have h3 : mapInsertAll (m ++ [hd]) tl = (m ++ [hd]) ++ tl :=
        ih (m ++ [hd]) hnd.2 h2
      show mapInsertAll (mapInsert m hd.1 hd.2) tl = m ++ hd :: tl
      rw [h1, h3, List.append_assoc]
      rfl

/-! ### Deep-equality lemmas -/


theorem cvalEq_refl {c : CVal} (hu : CValUniq c) : cvalEq c c = true := by
  cases c with
  | cMap om =>
      cases om with
      | none => rfl
      | some m => exact mapEqB_refl hu
  | cInt n => simp [cvalEq]
  | cInt64 n => simp [cvalEq]
  | cIntSlice xs => simp [cvalEq]
  | cInt64Slice xs => simp [cvalEq]
  | cStrSlice xs => simp [cvalEq]
  | cBool b => simp [cvalEq]

theorem cfieldsEq_refl {c : List (String × CVal)}
    (hu : ∀ x ∈ c, CValUniq x.2) : cfieldsEq c c = true := by
  induction c with
  | nil => rfl
  | cons hd tl ih =>
      show (hd.1 == hd.1 && cvalEq hd.2 hd.2 && cfieldsEq tl tl) = true
      rw [beq_self_eq_true, cvalEq_refl (hu hd (by simp)),
        ih (fun x hx => hu x (List.mem_cons_of_mem hd hx))]
      rfl

theorem cfieldsEq_length {c1 c2 : List (String × CVal)}
    (h : cfieldsEq c1 c2 = true) : c1.length = c2.length := by
  induction c1 generalizing c2 with
  | nil => cases c2 with
      | nil => rfl
      | cons hd tl => exact absurd h (by simp [cfieldsEq])
  | cons hd tl ih =>
      cases c2 with
      | nil => exact absurd h (by simp [cfieldsEq])
      | cons hd' tl' =>
          obtain ⟨n1, v1⟩ := hd
          obtain ⟨n2, v2⟩ := hd'
          simp only [cfieldsEq, Bool.and_eq_true] at h
          simpa using ih h.2

theorem cfieldsEq_pointwise {c1 c2 : List (String × CVal)}
    (h : cfieldsEq c1 c2 = true) :
    ∀ i x y, c1.get? i = some x → c2.get? i = some y →
      x.1 = y.1 ∧ cvalEq x.2 y.2 = true := by
  induction c1 generalizing c2 with
  | nil => intro i x y hx; cases i <;> exact absurd hx (by simp)
  | cons hd tl ih =>
      cases c2 with
      | nil => exact absurd h (by simp [cfieldsEq])
      | cons hd' tl' =>
          obtain ⟨n1, v1⟩ := hd
          obtain ⟨n2, v2⟩ := hd'
          simp only [cfieldsEq, Bool.and_eq_true] at h
          intro i x y hx hy
          cases i with
          | zero =>
              simp only [List.get?] at hx hy
              cases hx; cases hy
              exact ⟨eq_of_beq h.1.1, h.1.2⟩
          | succ n => exact ih h.2 n x y hx hy

theorem cfieldsEq_false_of_get? {c1 c2 : List (String × CVal)} {i : Nat}
    {x y : String × CVal} (hx : c1.get? i = some x) (hy : c2.get? i = some y)
    (hne : cvalEq x.2 y.2 = false) : cfieldsEq c1 c2 = false := by
  by_contra hcon
  have := cfieldsEq_pointwise (Bool.of_not_eq_false hcon) i x y hx hy
  rw [this.2] at hne
  exact Bool.noConfusion hne

/-! ## Specification of `autoFill`: canonical contents, fresh addresses -/




theorem vAddr_zeroValue (t : Ty) : vAddr t.zeroValue = none := by
  cases t <;> rfl

theorem readVal_zeroValue (h : Heap) (t : Ty) :
    readVal h t.zeroValue = zeroCVal t := by
  cases t <;> rfl

theorem hSet_append_length (l e : Heap) (o o' : Obj) :
    hSet (l ++ o :: e) l.length o' = l ++ o' :: e := by
  show (l ++ o :: e).set l.length o' = l ++ o' :: e
  induction l with
  | nil => rfl
  | cons hd tl ih => simp [List.set, ih]


theorem FieldSpec_ext {lo n : Nat} {h h2 : Heap} {nv : String × Value}
    {g : String × Ty × Option PureVal}
    (hagree : ∀ x, x < n → hGet h2 x = hGet h x)
    (hspec : FieldSpec lo n h nv g) : FieldSpec lo n h2 nv g := by
  refine ⟨hspec.1, hspec.2.1, ?_⟩
  rw [readVal_congr (fun a ha => hagree a (hspec.2.1 a ha).2)]
  exact hspec.2.2

theorem allocPure_spec {h h1 : Heap} {p : PureVal} {v : Value}
    (ha : allocPure h p = (h1, v)) :
    (∃ e, h1 = h ++ e) ∧ AddrIn h.length h1.length v ∧
      readVal h1 v = pureCVal p := by
  cases p with
  | pInt n =>
      cases ha
      exact ⟨⟨[], (List.append_nil h).symm⟩, fun a hc => Option.noConfusion hc,
        rfl⟩
  | pInt64 n =>
      cases ha
      exact ⟨⟨[], (List.append_nil h).symm⟩, fun a hc => Option.noConfusion hc,
        rfl⟩
  | pBool b =>
      cases ha
      exact ⟨⟨[], (List.append_nil h).symm⟩, fun a hc => Option.noConfusion hc,
        rfl⟩
  | pIntSlice xs =>
      cases ha
      refine ⟨⟨[.oInts xs], rfl⟩, ?_, ?_⟩
      · intro a hc
        cases hc
        simp
      · simp [readVal, intsAt, hGet_concat_self, pureCVal]
  | pInt64Slice xs =>
      cases ha
      refine ⟨⟨[.oInts xs], rfl⟩, ?_, ?_⟩
      · intro a hc
        cases hc
        simp
      · simp [readVal, intsAt, hGet_concat_self, pureCVal]
  | pStrSlice xs =>
      cases ha
      refine ⟨⟨[.oStrs xs], rfl⟩, ?_, ?_⟩
      · intro a hc
        cases hc
        simp
      · simp [readVal, strsAt, hGet_concat_self, pureCVal]
  | pMap es =>
      cases ha
      refine ⟨⟨[.oMap (mapInsertAll [] es)], rfl⟩, ?_, ?_⟩
      · intro a hc
        cases hc
        simp
      · simp [readVal, mapAt, hGet_concat_self, pureCVal]

theorem allocFields_spec :
    ∀ (gs : List (String × Ty × Option PureVal)) (h h' : Heap)
      (fs : List (String × Value)), allocFields h gs = (h', fs) →
    (∃ ext, h' = h ++ ext) ∧
      List.Forall₂ (FieldSpec h.length h'.length h') fs gs := by
  intro gs
  induction gs with
  | nil =>
      intro h h' fs ha
      cases ha
      exact ⟨⟨[], (List.append_nil h).symm⟩, List.Forall₂.nil⟩
  | cons g rest ih =>
      intro h h' fs ha
      obtain ⟨n, t, op⟩ := g
      cases op with
      | none =>
          simp only [allocFields] at ha
          rcases hrest : allocFields h rest with ⟨h2, fs2⟩
          rw [hrest] at ha
          cases ha
          rcases ih h h2 fs2 hrest with ⟨⟨ext, hext⟩, hf⟩
          refine ⟨⟨ext, hext⟩, List.Forall₂.cons ?_ hf⟩
          refine ⟨rfl, ?_, ?_⟩
          · intro a hc
            rw [vAddr_zeroValue] at hc
            exact Option.noConfusion hc
          · rw [readVal_zeroValue]
            rfl
      | some p =>
          simp only [allocFields] at ha
          rcases hpure : allocPure h p with ⟨h1, v⟩
          rw [hpure] at ha
          rcases hrest : allocFields h1 rest with ⟨h2, fs2⟩
          rw [hrest] at ha
          cases ha
          rcases allocPure_spec hpure with ⟨⟨e1, he1⟩, haddr, hread⟩
          rcases ih h1 h2 fs2 hrest with ⟨⟨ext, hext⟩, hf⟩
          have hlen1 : h.length ≤ h1.length := by
            rw [he1]
            simp
          have hlen2 : h1.length ≤ h2.length := by
            rw [hext]
            simp
          have hagree : ∀ x, x < h1.length → hGet h2 x = hGet h1 x := by
            intro x hx
            rw [hext]
            exact hGet_append_left ext hx
          refine ⟨⟨e1 ++ ext, by rw [hext, he1, List.append_assoc]⟩,
            List.Forall₂.cons ?_ ?_⟩
          · refine ⟨rfl, (haddr.mono le_rfl hlen2), ?_⟩
            rw [readVal_congr (fun a ha' => hagree a (haddr a ha').2)]
            exact hread
          · exact hf.imp (fun {nv} {g} hs =>
              ⟨hs.1, hs.2.1.mono hlen1 le_rfl, hs.2.2⟩)

theorem autoFill_spec {u : UserSC} {ty : List (String × Ty)} {h h' : Heap}
    {a : Addr} (hf : autoFill u ty h = some (h', a)) :
    a = h.length ∧ (∃ ext, h' = h ++ ext) ∧
    ∃ gs fs, genVals u u.init ty = some gs ∧
      hGet h' a = some (.oStruct fs) ∧
      List.Forall₂ (FieldSpec (h.length + 1) h'.length h') fs gs := by
  unfold autoFill at hf
  rcases hgen : genVals u u.init ty with _ | gs
  · rw [hgen] at hf
    exact absurd hf (by simp [hAlloc])
  · rw [hgen] at hf
    simp only [hAlloc] at hf
    rcases halloc : allocFields (h ++ [.oStruct
        (ty.map (fun nt => (nt.1, nt.2.zeroValue)))]) gs with ⟨h1, fs⟩
    rw [halloc] at hf
    simp only [Option.some.injEq, Prod.mk.injEq] at hf
    rcases allocFields_spec gs _ h1 fs halloc with ⟨⟨ext, hext⟩, hforall⟩
    have hlen0 : (h ++ [Obj.oStruct
        (ty.map (fun nt => (nt.1, nt.2.zeroValue)))]).length = h.length + 1 := by
      simp
    have halt : h.length < h1.length := by
      rw [hext]
      simp only [List.length_append, List.length_singleton]
      omega
    have hfin : h' = hSet h1 h.length (.oStruct fs) := hf.1.symm
    have halen : a = h.length := hf.2.symm
    have hlenfin : h'.length = h1.length := by
      rw [hfin, hSet_length]
    have hagree : ∀ x, x < h1.length → x ≠ h.length → hGet h' x = hGet h1 x := by
      intro x _ hne
      rw [hfin]
      exact hGet_set_ne h1 h.length x (.oStruct fs) (fun hh => hne hh.symm)
    refine ⟨halen, ⟨.oStruct fs :: ext, ?_⟩, gs, fs, rfl, ?_, ?_⟩
    · rw [hfin, hext, List.append_assoc, List.singleton_append,
        hSet_append_length]
    · rw [hfin, halen]
      exact hGet_set_self _ halt
    · rw [hlen0] at hforall
      rw [hlenfin]
      refine hforall.imp (fun {nv} {g} hs => ?_)
      refine ⟨hs.1, hs.2.1, ?_⟩
      have : readVal h' nv.2 = readVal h1 nv.2 := by
        refine readVal_congr (fun a' ha' => ?_)
        rcases hs.2.1 a' ha' with ⟨hlo, hhi⟩
        exact hagree a' hhi (by omega)
      rw [this]
      exact hs.2.2

theorem forall₂_map_content {h : Heap} {fs : List (String × Value)}
    {gs : List (String × Ty × Option PureVal)} {lo hi : Nat}
    (hf : List.Forall₂ (FieldSpec lo hi h) fs gs) :
    fs.map (fun nv => (nv.1, readVal h nv.2)) =
      gs.map (fun g => (g.1, gContent g)) := by
  induction hf with
  | nil => rfl
  | cons hs _ ih =>
      simp only [List.map_cons, ih, List.cons.injEq, and_true]
      rw [hs.1, hs.2.2]

/-- Pointwise `readStruct` form of the `autoFill` specification. -/
theorem readStruct_of_forall₂ {h : Heap} {a : Addr}
    {fs : List (String × Value)} {gs : List (String × Ty × Option PureVal)}
    {lo hi : Nat} (hget : hGet h a = some (.oStruct fs))
    (hf : List.Forall₂ (FieldSpec lo hi h) fs gs) :
    readStruct h a = some (gs.map (fun g => (g.1, gContent g))) := by
  unfold readStruct
  rw [hget]
  show some (fs.map (fun nv => (nv.1, readVal h nv.2))) = _
  rw [forall₂_map_content hf]

/-! ## Determinism of `autoFill` (claim C4) -/

theorem pureCVal_uniq (p : PureVal) : CValUniq (pureCVal p) := by
  cases p with
  | pMap es => exact mapInsertAll_nodup (by simp) es
  | pInt n => trivial
  | pInt64 n => trivial
  | pIntSlice xs => trivial
  | pInt64Slice xs => trivial
  | pStrSlice xs => trivial
  | pBool b => trivial

theorem gContent_uniq (g : String × Ty × Option PureVal) :
    CValUniq (gContent g) := by
  unfold gContent
  rcases g with ⟨n, t, _ | p⟩
  · cases t <;> trivial
  · exact pureCVal_uniq p

theorem canonical_uniq {gs : List (String × Ty × Option PureVal)} :
    ∀ x ∈ gs.map (fun g => (g.1, gContent g)), CValUniq x.2 := by
  intro x hx
  rcases List.mem_map.1 hx with ⟨g, _, hg⟩
  rw [← hg]
  exact gContent_uniq g

/-- Filling twice in a row with fresh generator chains produces two
deep-equal instances: the canonical contents only depend on the record
type and the setter chains. -/
theorem autoFill_deterministic {u : UserSC} {ty : List (String × Ty)}
    {h h1 h2 : Heap} {a1 a2 : Addr}
    (hf1 : autoFill u ty h = some (h1, a1))
    (hf2 : autoFill u ty h1 = some (h2, a2)) :
    deepEq h2 a1 a2 = true := by
  rcases autoFill_spec hf1 with ⟨_, ⟨_, _⟩, gs, fs1, hgen1, hget1, hforall1⟩
  rcases autoFill_spec hf2 with ⟨_, ⟨ext2, hext2⟩, gs', fs2, hgen2, hget2,
    hforall2⟩
  have hgs : gs' = gs := by
    rw [hgen1] at hgen2
    injection hgen2 with hh
    exact hh.symm
  rw [hgs] at hforall2
  have hagree : ∀ x, x < h1.length → hGet h2 x = hGet h1 x := by
    intro x hx
    rw [hext2]
    exact hGet_append_left ext2 hx
  have ha1lt : a1 < h1.length := hGet_lt_length hget1
  have hget1' : hGet h2 a1 = some (.oStruct fs1) := by
    rw [hagree a1 ha1lt]
    exact hget1
  have hforall1' := hforall1.imp (fun {nv} {g} hs => FieldSpec_ext hagree hs)
  have hr1 : readStruct h2 a1 =
      some (gs.map (fun g => (g.1, gContent g))) :=
    readStruct_of_forall₂ hget1' hforall1'
  have hr2 : readStruct h2 a2 =
      some (gs.map (fun g => (g.1, gContent g))) :=
    readStruct_of_forall₂ hget2 hforall2
  unfold deepEq
  rw [hr1, hr2]
  exact cfieldsEq_refl canonical_uniq

theorem verifyFields_ne_refOrigEqual (uch : List Changer) (cloner : Cloner)
    (orig ref : Addr) :
    ∀ (flds : List String) (h : Heap),
      verifyFields uch cloner orig ref h flds ≠ .errRefOrigEqual := by
  intro flds
  induction flds with
  | nil =>
      intro h hcon
      exact VRes.noConfusion hcon
  | cons f rest ih =>
      intro h
      unfold verifyFields
      rcases hcl : cloner h orig with ⟨h1, clone⟩
      rcases hde : deepEq h1 orig clone with _ | _
      · simp [hde]
      · rcases hac : autoChange uch h1 clone f with h2 | _ | _ | _
        · rcases hde2 : deepEq h2 orig ref with _ | _
          · simp [hde, hac, hde2]
          · rcases hde3 : deepEq h2 orig clone with _ | _
            · simpa [hde, hac, hde2, hde3] using ih h2
            · simp [hde, hac, hde2, hde3]
        · simp [hde, hac]
        · simp [hde, hac]
        · simp [hde, hac]

/-- C4: two calls to `autoFill` with freshly created generator chains
(same factories, same field order) produce deep-equal instances, so the
orig-versus-ref check of `Verify` passes and `RefOrigEqual` is never
returned. -/
theorem autoFill_deterministic_no_ref_orig_equal :
    (∀ (u : UserSC) (ty : List (String × Ty)) (h h1 h2 : Heap) (a1 a2 : Addr),
      autoFill u ty h = some (h1, a1) → autoFill u ty h1 = some (h2, a2) →
      deepEq h2 a1 a2 = true) ∧
    (∀ (ty : List (String × Ty)) (u : UserSC) (uch : List Changer)
       (cloner : Cloner), Verify ty u uch cloner ≠ .errRefOrigEqual) := by
  constructor
  · intro u ty h h1 h2 a1 a2 hf1 hf2
    exact autoFill_deterministic hf1 hf2
  · intro ty u uch cloner
    unfold Verify
    rcases hf1 : autoFill u ty [] with _ | ⟨h1, orig⟩
    · intro hcon
      exact VRes.noConfusion hcon
    · show (match autoFill u ty h1 with
        | none => VRes.errRefFill
        | some (h2, ref) =>
            if (!deepEq h2 orig ref) = true then VRes.errRefOrigEqual
            else verifyFields uch cloner orig ref h2 (structFields ty)) ≠
          VRes.errRefOrigEqual
      rcases hf2 : autoFill u ty h1 with _ | ⟨h2, ref⟩
      · intro hcon
        exact VRes.noConfusion hcon
      · show (if (!deepEq h2 orig ref) = true then VRes.errRefOrigEqual
          else verifyFields uch cloner orig ref h2 (structFields ty)) ≠
            VRes.errRefOrigEqual
        have hde : deepEq h2 orig ref = true := autoFill_deterministic hf1 hf2
        simp only [hde, Bool.not_true, Bool.false_eq_true, if_false]
        exact verifyFields_ne_refOrigEqual uch cloner orig ref
          (structFields ty) h2

/-- Witness for C4 at the one-field record `{A int64}`. -/
theorem autoFill_deterministic_no_ref_orig_equal_witness :
    autoFill noUserSetters [("A", .tInt64)] [] =
      some ([.oStruct [("A", .vInt64 1)]], 0) ∧
    autoFill noUserSetters [("A", .tInt64)] [.oStruct [("A", .vInt64 1)]] =
      some ([.oStruct [("A", .vInt64 1)], .oStruct [("A", .vInt64 1)]], 1) ∧
    deepEq [.oStruct [("A", .vInt64 1)], .oStruct [("A", .vInt64 1)]] 0 1 =
      true :=
  ⟨by decide, by decide,
    autoFill_deterministic_no_ref_orig_equal.1 noUserSetters
      [("A", .tInt64)] [] [.oStruct [("A", .vInt64 1)]]
      [.oStruct [("A", .vInt64 1)], .oStruct [("A", .vInt64 1)]] 0 1
      (by decide) (by decide)⟩

/-! ## `structFields` (claim C8) -/

theorem structFieldsLoop_eq (ty : List (String × Ty)) :
    ∀ acc, structFieldsLoop acc ty =
      acc ++ (ty.filter (fun nt => isExported nt.1)).map Prod.fst := by
  induction ty with
  | nil => intro acc; simp [structFieldsLoop]
  | cons nt rest ih =>
      intro acc
      obtain ⟨n, t⟩ := nt
      rcases hexp : isExported n with _ | _
      · simp [structFieldsLoop, hexp, ih]
      · simp [structFieldsLoop, hexp, ih]

/-- Every field-carrying error of the per-field loop names a member of
the field list it was given. -/
theorem verifyFields_error_field_mem (uch : List Changer) (cloner : Cloner)
    (orig ref : Addr) :
    ∀ (flds : List String) (h : Heap) (f : String),
      (verifyFields uch cloner orig ref h flds = .errCloneOrigNotEqual f ∨
       verifyFields uch cloner orig ref h flds = .errChange f ∨
       verifyFields uch cloner orig ref h flds = .errOrigChanged f ∨
       verifyFields uch cloner orig ref h flds = .errCloneOrigEqual f) →
      f ∈ flds := by
  intro flds
  induction flds with
  | nil =>
      intro h f hcon
      rcases hcon with hc | hc | hc | hc <;>
        exact absurd hc (by simp [verifyFields])
  | cons g rest ih =>
      intro h f hcon
      unfold verifyFields at hcon
      rcases hcl : cloner h orig with ⟨h1, clone⟩
      rw [hcl] at hcon
      rcases hde : deepEq h1 orig clone with _ | _
      · simp [hde] at hcon
        rw [hcon]
        exact List.mem_cons_self f rest
      · rcases hac : autoChange uch h1 clone g with h2 | _ | _ | _
        · rcases hde2 : deepEq h2 orig ref with _ | _
          · simp [hde, hac, hde2] at hcon
            rw [hcon]
            exact List.mem_cons_self f rest
          · rcases hde3 : deepEq h2 orig clone with _ | _
            · simp [hde, hac, hde2, hde3] at hcon
              exact List.mem_cons_of_mem g (ih h2 f hcon)
            · simp [hde, hac, hde2, hde3] at hcon
              rw [hcon]
              exact List.mem_cons_self f rest
        · simp [hde, hac] at hcon
          rw [hcon]
          exact List.mem_cons_self f rest
        · simp [hde, hac] at hcon
          rw [hcon]
          exact List.mem_cons_self f rest
        · simp [hde, hac] at hcon

/-- C8: `structFields` returns exactly the exported field names in
type-declaration order, omitting every field whose name begins with an
underscore or a lowercase letter; and the per-field mutation pass of
`Verify` iterates this list, so every field-carrying error it returns
names a member of `structFields`. -/
theorem structFields_exported_decl_order :
    (∀ ty : List (String × Ty),
      structFields ty =
        (ty.filter (fun nt => isExported nt.1)).map Prod.fst) ∧
    (∀ (ty : List (String × Ty)) (u : UserSC) (uch : List Changer)
       (cloner : Cloner) (f : String),
      (Verify ty u uch cloner = .errCloneOrigNotEqual f ∨
       Verify ty u uch cloner = .errChange f ∨
       Verify ty u uch cloner = .errOrigChanged f ∨
       Verify ty u uch cloner = .errCloneOrigEqual f) →
      f ∈ structFields ty) := by
  constructor
  · intro ty
    rw [structFields, structFieldsLoop_eq, List.nil_append]
  · intro ty u uch cloner f hcon
    unfold Verify at hcon
    rcases hf1 : autoFill u ty [] with _ | ⟨h1, orig⟩
    · simp only [hf1] at hcon
      rcases hcon with hc | hc | hc | hc <;> exact VRes.noConfusion hc
    · simp only [hf1] at hcon
      rcases hf2 : autoFill u ty h1 with _ | ⟨h2, ref⟩
      · simp only [hf2] at hcon
        rcases hcon with hc | hc | hc | hc <;> exact VRes.noConfusion hc
      · simp only [hf2] at hcon
        rcases hde : deepEq h2 orig ref with _ | _
        · simp only [hde, Bool.not_false, if_true] at hcon
          rcases hcon with hc | hc | hc | hc <;> exact VRes.noConfusion hc
        · simp only [hde, Bool.not_true, Bool.false_eq_true, if_false] at hcon
          exact verifyFields_error_field_mem uch cloner orig ref
            (structFields ty) h2 f hcon

/-- Witness for C8: the scenario-4 run fails on field `S`, which is in
`structFields`. -/
theorem structFields_exported_decl_order_witness :
    (Verify [("S", .tStrSlice)] noUserSetters [] makeNoCopyCloner =
      .errCloneOrigNotEqual "S" ∨
     Verify [("S", .tStrSlice)] noUserSetters [] makeNoCopyCloner =
      .errChange "S" ∨
     Verify [("S", .tStrSlice)] noUserSetters [] makeNoCopyCloner =
      .errOrigChanged "S" ∨
     Verify [("S", .tStrSlice)] noUserSetters [] makeNoCopyCloner =
      .errCloneOrigEqual "S") ∧
    "S" ∈ structFields [("S", .tStrSlice)] :=
  ⟨Or.inl (by decide),
    structFields_exported_decl_order.2 [("S", .tStrSlice)] noUserSetters []
      makeNoCopyCloner "S" (Or.inl (by decide))⟩

/-! ## Claim C6: the embedded scalar mutator -/

/-- C6 counterexample: at the int64 field value 0 the embedded scalar
mutator's edit is not observable — the changer reports success but leaves
the value 0 unchanged (0 * 2 = 0), refuting the claim for "every" value. -/
theorem int64_changer_zero_fixed_point :
    chInt64 [] (.vInt64 0) = .ok [] (.vInt64 0) := by decide

/-- C6 amended: for every nonzero int64 field value `v`, replacing `v`
with `v` times the fixed non-unit factor 2 (64-bit wraparound) yields a
value different from `v`. -/
theorem int64_changer_changes_nonzero :
    ∀ (h : Heap) (n : Int), -(2 ^ 63) ≤ n → n < 2 ^ 63 → n ≠ 0 →
      chInt64 h (.vInt64 n) =
        .ok h (.vInt64 (wrap64 (n * initialSeed))) ∧
      wrap64 (n * initialSeed) ≠ n := by
  intro h n hlo hhi hne
  exact ⟨rfl, wrap64_mul_two_ne_of_ne_zero hne hlo hhi⟩

/-- Witness for C6 (amended) at `v = 3`. -/
theorem int64_changer_changes_nonzero_witness :
    (-(2 ^ 63) ≤ (3 : Int)) ∧ ((3 : Int) < 2 ^ 63) ∧ ((3 : Int) ≠ 0) ∧
    (chInt64 [] (.vInt64 3) =
        .ok [] (.vInt64 (wrap64 (3 * initialSeed))) ∧
      wrap64 (3 * initialSeed) ≠ 3) :=
  ⟨by decide, by decide, by decide,
    int64_changer_changes_nonzero [] 3 (by decide) (by decide) (by decide)⟩

/-! ## Claim C7: frame conditions of the sequence and map mutators -/

/-- C7: each embedded sequence mutator rewrites exactly the last element
(multiplication by 2 for integer slices, self-concatenation for string
slices) and preserves the length and all other elements; the embedded map
mutator rewrites exactly one entry's value (the first visited one) and
preserves the keys and all other entries, leaving the field value itself
untouched. -/
theorem changers_frame_conditions :
    (∀ (h : Heap) (a : Addr) (xs : List Int),
      hGet h a = some (.oInts xs) → xs ≠ [] →
      ∃ x, xs.get? (xs.length - 1) = some x ∧
        chIntSlice h (.vIntSlice (some a)) =
          .ok (hSet h a (.oInts
            (xs.set (xs.length - 1) (wrap64 (x * initialSeed)))))
            (.vIntSlice (some a)) ∧
        (xs.set (xs.length - 1) (wrap64 (x * initialSeed))).length =
          xs.length ∧
        (xs.set (xs.length - 1) (wrap64 (x * initialSeed))).get?
          (xs.length - 1) = some (wrap64 (x * initialSeed)) ∧
        ∀ i, i ≠ xs.length - 1 →
          (xs.set (xs.length - 1) (wrap64 (x * initialSeed))).get? i =
            xs.get? i) ∧
    (∀ (h : Heap) (a : Addr) (xs : List Int),
      hGet h a = some (.oInts xs) → xs ≠ [] →
      ∃ x, xs.get? (xs.length - 1) = some x ∧
        chInt64Slice h (.vInt64Slice (some a)) =
          .ok (hSet h a (.oInts
            (xs.set (xs.length - 1) (wrap64 (x * initialSeed)))))
            (.vInt64Slice (some a))) ∧
    (∀ (h : Heap) (a : Addr) (xs : List String),
      hGet h a = some (.oStrs xs) → xs ≠ [] →
      ∃ x, xs.get? (xs.length - 1) = some x ∧
        chStrSlice h (.vStrSlice (some a)) =
          .ok (hSet h a (.oStrs (xs.set (xs.length - 1) (x ++ x))))
            (.vStrSlice (some a)) ∧
        (xs.set (xs.length - 1) (x ++ x)).length = xs.length ∧
        (xs.set (xs.length - 1) (x ++ x)).get? (xs.length - 1) =
          some (x ++ x) ∧
        ∀ i, i ≠ xs.length - 1 →
          (xs.set (xs.length - 1) (x ++ x)).get? i = xs.get? i) ∧
    (∀ (h : Heap) (a : Addr) (k : String) (v : Int)
       (rest : List (String × Int)),
      hGet h a = some (.oMap ((k, v) :: rest)) →
      chMap h (.vMap (some a)) =
        .ok (hSet h a (.oMap ((k, wrap64 (v * initialSeed)) :: rest)))
          (.vMap (some a)) ∧
      ((k, wrap64 (v * initialSeed)) :: rest).map Prod.fst =
        ((k, v) :: rest).map Prod.fst ∧
      ((k, wrap64 (v * initialSeed)) :: rest).length =
        ((k, v) :: rest).length ∧
      ∀ i, i ≠ 0 →
        ((k, wrap64 (v * initialSeed)) :: rest).get? i =
          ((k, v) :: rest).get? i) := by
  refine ⟨?_, ?_, ?_, ?_⟩
  · intro h a xs hget hne
    have hpos : 0 < xs.length := List.length_pos.2 hne
    have hlt : xs.length - 1 < xs.length := by omega
    refine ⟨xs.get ⟨xs.length - 1, hlt⟩, List.get?_eq_get hlt, ?_, ?_, ?_, ?_⟩
    · simp only [chIntSlice, mulLastInts, hget, List.get?_eq_get hlt]
    · exact List.length_set xs _ _
    · rw [List.get?_eq_getElem?, List.getElem?_set_self (by simpa using hlt)]
    · intro i hi
      exact List.get?_set_ne _ _ (fun hc => hi hc.symm)
  · intro h a xs hget hne
    have hpos : 0 < xs.length := List.length_pos.2 hne
    have hlt : xs.length - 1 < xs.length := by omega
    refine ⟨xs.get ⟨xs.length - 1, hlt⟩, List.get?_eq_get hlt, ?_⟩
    simp only [chInt64Slice, mulLastInts, hget, List.get?_eq_get hlt]
  · intro h a xs hget hne
    have hpos : 0 < xs.length := List.length_pos.2 hne
    have hlt : xs.length - 1 < xs.length := by omega
    refine ⟨xs.get ⟨xs.length - 1, hlt⟩, List.get?_eq_get hlt, ?_, ?_, ?_, ?_⟩
    · simp only [chStrSlice, hget, List.get?_eq_get hlt]
    · exact List.length_set xs _ _
    · rw [List.get?_eq_getElem?, List.getElem?_set_self (by simpa using hlt)]
    · intro i hi
      exact List.get?_set_ne _ _ (fun hc => hi hc.symm)
  · intro h a k v rest hget
    refine ⟨?_, rfl, rfl, ?_⟩
    · simp only [chMap, hget]
    · intro i hi
      cases i with
      | zero => exact absurd rfl hi
      | succ j => rfl

/-- Witness for C7 on a two-element `[]int64` backing object. -/
theorem changers_frame_conditions_witness :
    ∃ x, ([2, 3] : List Int).get? 1 = some x ∧
      chInt64Slice [.oInts [2, 3]] (.vInt64Slice (some 0)) =
        .ok (hSet [.oInts [2, 3]] 0 (.oInts
          (([2, 3] : List Int).set 1 (wrap64 (x * initialSeed)))))
          (.vInt64Slice (some 0)) :=
  changers_frame_conditions.2.1 [.oInts [2, 3]] 0 [2, 3] (by decide)
    (by decide)

/-! ## Claim C9: the map mutator on empty maps -/

/-- C9: applied to a nil or empty `map[string]any` value the embedded map
changer reports success while changing nothing; consequently a verifier
whose setter produces an empty map for the map field reaches
`CloneOrigEqual` even with a perfectly correct deep-copy cloner. -/
theorem empty_map_changer_succeeds_clone_orig_equal :
    (∀ h : Heap, chMap h (.vMap none) = .ok h (.vMap none)) ∧
    (∀ (h : Heap) (a : Addr), hGet h a = some (.oMap []) →
      chMap h (.vMap (some a)) = .ok h (.vMap (some a))) ∧
    (Verify [("M", .tMap)] emptyMapSetter [] deepCloner =
      .errCloneOrigEqual "M") := by
  refine ⟨fun h => rfl, ?_, by decide⟩
  intro h a hget
  simp only [chMap, hget]

/-- Witness for C9 on a concrete empty map object. -/
theorem empty_map_changer_succeeds_clone_orig_equal_witness :
    chMap [.oMap []] (.vMap (some 0)) = .ok [.oMap []] (.vMap (some 0)) :=
  empty_map_changer_succeeds_clone_orig_equal.2.1 [.oMap []] 0 (by decide)

/-! ## Claim C5: `autoChange` ordering and error cases -/

theorem tryChangers_first_ok :
    ∀ (us : List Changer) (i : Nat) (c : Changer) (h h' : Heap)
      (v v' : Value) (es : List Changer),
      us.get? i = some c → c h v = .ok h' v' →
      (∀ j cj, j < i → us.get? j = some cj → cj h v = .declined) →
      tryChangers (us ++ es) h v = .ok h' v' := by
  intro us
  induction us with
  | nil =>
      intro i c h h' v v' es hi
      exact absurd hi (by simp)
  | cons c0 rest ih =>
      intro i c h h' v v' es hi hok hbefore
      cases i with
      | zero =>
          simp only [List.get?] at hi
          injection hi with hc
          show (match c0 h v with
            | .declined => tryChangers (rest ++ es) h v
            | r => r) = _
          rw [hc, hok]
      | succ j =>
          have hc0 : c0 h v = .declined :=
            hbefore 0 c0 (Nat.succ_pos j) rfl
          show (match c0 h v with
            | .declined => tryChangers (rest ++ es) h v
            | r => r) = _
          rw [hc0]
          exact ih j c h h' v v' es hi hok
            (fun j' cj hj' hget => hbefore (j' + 1) cj
              (Nat.succ_lt_succ hj') hget)

theorem tryChangers_all_declined :
    ∀ (us : List Changer) (h : Heap) (v : Value) (es : List Changer),
      (∀ c ∈ us, c h v = .declined) →
      tryChangers (us ++ es) h v = tryChangers es h v := by
  intro us
  induction us with
  | nil => intro h v es _; rfl
  | cons c0 rest ih =>
      intro h v es hdec
      show (match c0 h v with
        | .declined => tryChangers (rest ++ es) h v
        | r => r) = _
      rw [hdec c0 (by simp)]
      exact ih h v es (fun c hc => hdec c (List.mem_cons_of_mem c0 hc))

theorem embChangers_decline_vBool (h : Heap) (b : Bool) :
    tryChangers embChangers h (.vBool b) = .declined := rfl

theorem findFieldIdx_none {fs : List (String × Value)} {field : String}
    (hne : ∀ nv ∈ fs, nv.1 ≠ field) : findFieldIdx fs field = none := by
  unfold findFieldIdx
  suffices hgen : ∀ i, List.findIdx? (fun nv => nv.1 = field) fs i = none by
    exact hgen 0
  induction fs with
  | nil => intro i; rfl
  | cons nv rest ih =>
      intro i
      have hfalse : (decide (nv.1 = field)) = false :=
        decide_eq_false (hne nv (by simp))
      simp only [List.findIdx?, hfalse]
      exact ih (fun x hx => hne x (List.mem_cons_of_mem nv hx)) (i + 1)

/-- C5: `autoChange` tries user mutators before the built-in ones, in
registration order, stopping at the first success; a field that exists but
whose runtime type no mutator claims yields the `Change` error; a field
name absent from the type yields the `FieldNotFound` error. -/
theorem autoChange_order_and_errors :
    (∀ (us : List Changer) (i : Nat) (c : Changer) (h h' : Heap)
       (v v' : Value),
      us.get? i = some c → c h v = .ok h' v' →
      (∀ j cj, j < i → us.get? j = some cj → cj h v = .declined) →
      tryChangers (us ++ embChangers) h v = .ok h' v') ∧
    (∀ (uch : List Changer) (h : Heap) (a : Addr)
       (fs : List (String × Value)) (field : String) (i : Nat) (n : String)
       (b : Bool),
      hGet h a = some (.oStruct fs) → findFieldIdx fs field = some i →
      fs.get? i = some (n, .vBool b) →
      (∀ c ∈ uch, c h (.vBool b) = .declined) →
      autoChange uch h a field = .errChange) ∧
    (∀ (uch : List Changer) (h : Heap) (a : Addr)
       (fs : List (String × Value)) (field : String),
      hGet h a = some (.oStruct fs) → (∀ nv ∈ fs, nv.1 ≠ field) →
      autoChange uch h a field = .errFieldNotFound) := by
  refine ⟨?_, ?_, ?_⟩
  · intro us i c h h' v v' hi hok hbefore
    exact tryChangers_first_ok us i c h h' v v' embChangers hi hok hbefore
  · intro uch h a fs field i n b hget hidx hfs hdec
    have htc : tryChangers (uch ++ embChangers) h (.vBool b) = .declined := by
      rw [tryChangers_all_declined uch h (.vBool b) embChangers hdec]
      exact embChangers_decline_vBool h b
    simp only [autoChange, hget, hidx, hfs, htc]
  · intro uch h a fs field hget hne
    simp only [autoChange, hget, findFieldIdx_none hne]

/-- Witness for C5: calling `autoChange` directly with a field name absent
from the type returns the field-not-found error (concrete scenario 5). -/
theorem autoChange_order_and_errors_witness :
    autoChange [] [.oStruct [("A", .vInt64 1)]] 0 "Nope" =
      .errFieldNotFound :=
  autoChange_order_and_errors.2.2 [] [.oStruct [("A", .vInt64 1)]] 0
    [("A", .vInt64 1)] "Nope" (by decide) (by decide)

/-! ## Claim C1: the pre-mutation clone/original equality check -/

/-- C1: immediately after the cloner runs, and before any field mutation
(the result is the same for every mutator list), `Verify`'s per-field loop
compares the clone to the original and returns `CloneOrigNotEqual` when
they differ; in particular, for `{S []string}` with a cloner that
allocates fresh backing storage without copying the elements, `Verify`
returns `CloneOrigNotEqual`. -/
theorem clone_not_equal_detected_before_mutation :
    (∀ (uch : List Changer) (cloner : Cloner) (orig ref : Addr) (h h1 : Heap)
       (clone : Addr) (f : String) (rest : List String),
      cloner h orig = (h1, clone) → deepEq h1 orig clone = false →
      verifyFields uch cloner orig ref h (f :: rest) =
        .errCloneOrigNotEqual f) ∧
    (Verify [("S", .tStrSlice)] noUserSetters [] makeNoCopyCloner =
      .errCloneOrigNotEqual "S") := by
  constructor
  · intro uch cloner orig ref h h1 clone f rest hcl hde
    unfold verifyFields
    rw [hcl]
    simp [hde]
  · decide

/-- Witness for C1's general part: the scenario-4 heaps after both fills,
where the clone's freshly allocated `S` holds empty strings. -/
theorem clone_not_equal_detected_before_mutation_witness :
    makeNoCopyCloner
        [.oStruct [("S", .vStrSlice (some 1))],
         .oStrs [strRepeat (baseCharOf 2 ++ "_") 2,
                 strRepeat (baseCharOf 2 ++ "_") 2],
         .oStruct [("S", .vStrSlice (some 3))],
         .oStrs [strRepeat (baseCharOf 2 ++ "_") 2,
                 strRepeat (baseCharOf 2 ++ "_") 2]] 0 =
      ([.oStruct [("S", .vStrSlice (some 1))],
        .oStrs [strRepeat (baseCharOf 2 ++ "_") 2,
                strRepeat (baseCharOf 2 ++ "_") 2],
        .oStruct [("S", .vStrSlice (some 3))],
        .oStrs [strRepeat (baseCharOf 2 ++ "_") 2,
                strRepeat (baseCharOf 2 ++ "_") 2],
        .oStrs ["", ""],
        .oStruct [("S", .vStrSlice (some 4))]], 5) ∧
    verifyFields [] makeNoCopyCloner 0 2
        [.oStruct [("S", .vStrSlice (some 1))],
         .oStrs [strRepeat (baseCharOf 2 ++ "_") 2,
                 strRepeat (baseCharOf 2 ++ "_") 2],
         .oStruct [("S", .vStrSlice (some 3))],
         .oStrs [strRepeat (baseCharOf 2 ++ "_") 2,
                 strRepeat (baseCharOf 2 ++ "_") 2]] ["S"] =
      .errCloneOrigNotEqual "S" :=
  ⟨by decide,
    clone_not_equal_detected_before_mutation.1 [] makeNoCopyCloner 0 2
      [.oStruct [("S", .vStrSlice (some 1))],
       .oStrs [strRepeat (baseCharOf 2 ++ "_") 2,
               strRepeat (baseCharOf 2 ++ "_") 2],
       .oStruct [("S", .vStrSlice (some 3))],
       .oStrs [strRepeat (baseCharOf 2 ++ "_") 2,
               strRepeat (baseCharOf 2 ++ "_") 2]]
      [.oStruct [("S", .vStrSlice (some 1))],
       .oStrs [strRepeat (baseCharOf 2 ++ "_") 2,
               strRepeat (baseCharOf 2 ++ "_") 2],
       .oStruct [("S", .vStrSlice (some 3))],
       .oStrs [strRepeat (baseCharOf 2 ++ "_") 2,
               strRepeat (baseCharOf 2 ++ "_") 2],
       .oStrs ["", ""],
       .oStruct [("S", .vStrSlice (some 4))]] 5
      "S" [] (by decide) (by decide)⟩

/-! ## Claim C2: repeated same-category fields and the embedded chain -/

theorem strRepeat_length (s : String) :
    ∀ n, (strRepeat s n).length = n * s.length := by
  intro n
  induction n with
  | zero => simp [strRepeat]
  | succ m ih =>
      show (s ++ strRepeat s m).length = (m + 1) * s.length
      rw [String.length_append, ih]
      ring

theorem baseChar_underscore_length (m : Int) :
    (baseCharOf m ++ "_").length = 2 := by
  rw [String.length_append, baseCharOf, String.length_singleton]
  rfl

theorem embTry_tInt (est : EmbSt) :
    embTry est .tInt =
      some (.pInt (est.intVal + 1), { est with intVal := est.intVal + 1 }) :=
  rfl

theorem embTry_tInt64 (est : EmbSt) :
    embTry est .tInt64 =
      some (.pInt64 (est.i64v + 1), { est with i64v := est.i64v + 1 }) :=
  rfl

theorem embTry_tIntSlice (est : EmbSt) :
    embTry est .tIntSlice =
      some (.pIntSlice ((List.range ((est.intVal + 1) * initialSeed).toNat).map
              (fun (i : Nat) => est.intVal + 1 + (i : Int))),
            { est with intVal := est.intVal + 1 }) :=
  rfl

theorem embTry_tInt64Slice (est : EmbSt) :
    embTry est .tInt64Slice =
      some (.pInt64Slice ((List.range ((est.i64v + 1) * initialSeed).toNat).map
              (fun (i : Nat) => est.i64v + 1 + (i : Int))),
            { est with i64v := est.i64v + 1 }) :=
  rfl

theorem embTry_tStrSlice (est : EmbSt) :
    embTry est .tStrSlice =
      some (.pStrSlice (List.replicate est.nStrs.toNat
              (strRepeat (baseCharOf est.nStrs ++ "_") est.nStrs.toNat)),
            { est with nStrs := est.nStrs + 1 }) :=
  rfl

theorem embTry_tMap (est : EmbSt) :
    embTry est .tMap =
      some (.pMap ((List.range est.nStrs.toNat).map
              (fun (i : Nat) => (strRepeat (baseCharOf est.nStrs ++ "_")
                           (est.nStrs.toNat + i),
                         ((i : Int) + 1) * 3 / 2))),
            { est with nStrs := est.nStrs + 1 }) :=
  rfl

theorem embTry_tBool (est : EmbSt) : embTry est .tBool = none := rfl

/-- The last element of a `range`-`map` built slice. -/
theorem range_map_add_last {n : Int} (m : Nat) (hm : 0 < m) :
    ((List.range m).map (fun (i : Nat) => n + (i : Int))).get?
      (((List.range m).map (fun (i : Nat) => n + (i : Int))).length - 1) =
      some (n + ((m - 1 : Nat) : Int)) := by
  rw [List.length_map, List.length_range, List.get?_map,
    List.get?_range (by omega)]
  rfl

theorem embTry_shape {est : EmbSt} {t : Ty} {p : PureVal} {est' : EmbSt}
    (hok : StOK est) (htry : embTry est t = some (p, est')) :
    PvalShape t p := by
  obtain ⟨h64, hint, hstr⟩ := hok
  cases t with
  | tInt =>
      rw [embTry_tInt] at htry
      injection htry with h1
      injection h1 with hp _
      rw [← hp]
      show 1 ≤ est.intVal + 1
      omega
  | tInt64 =>
      rw [embTry_tInt64] at htry
      injection htry with h1
      injection h1 with hp _
      rw [← hp]
      show 1 ≤ est.i64v + 1
      omega
  | tIntSlice =>
      rw [embTry_tIntSlice] at htry
      injection htry with h1
      injection h1 with hp _
      rw [← hp]
      refine ⟨?_, ?_⟩
      · rw [List.length_map, List.length_range]
        unfold initialSeed
        omega
      · refine ⟨est.intVal + 1 +
          ((((est.intVal + 1) * initialSeed).toNat - 1 : Nat) : Int), ?_, ?_⟩
        · exact range_map_add_last _ (by unfold initialSeed; omega)
        · unfold initialSeed
          omega
  | tInt64Slice =>
      rw [embTry_tInt64Slice] at htry
      injection htry with h1
      injection h1 with hp _
      rw [← hp]
      refine ⟨?_, ?_⟩
      · rw [List.length_map, List.length_range]
        unfold initialSeed
        omega
      · refine ⟨est.i64v + 1 +
          ((((est.i64v + 1) * initialSeed).toNat - 1 : Nat) : Int), ?_, ?_⟩
        · exact range_map_add_last _ (by unfold initialSeed; omega)
        · unfold initialSeed
          omega
  | tStrSlice =>
      rw [embTry_tStrSlice] at htry
      injection htry with h1
      injection h1 with hp _
      rw [← hp]
      refine ⟨?_, ?_⟩
      · rw [List.length_replicate]
        omega
      · refine ⟨strRepeat (baseCharOf est.nStrs ++ "_") est.nStrs.toNat,
          ?_, ?_⟩
        · rw [List.length_replicate, List.get?_eq_getElem?,
            List.getElem?_replicate, if_pos (by omega)]
        · intro hempty
          have hlen := strRepeat_length (baseCharOf est.nStrs ++ "_")
            est.nStrs.toNat
          rw [hempty, baseChar_underscore_length] at hlen
          have hnil : ("" : String).length = 0 := rfl
          rw [hnil] at hlen
          omega
  | tMap =>
      rw [embTry_tMap] at htry
      injection htry with h1
      injection h1 with hp _
      rw [← hp]
      refine ⟨?_, ?_, ?_⟩
      · rw [List.length_map, List.length_range]
        omega
      · rw [List.map_map]
        refine List.Nodup.map ?_ (List.nodup_range est.nStrs.toNat)
        intro i j hij
        simp only [Function.comp] at hij
        have hlen := congrArg String.length hij
        rw [strRepeat_length, strRepeat_length,
          baseChar_underscore_length] at hlen
        omega
      · intro kv hkv
        rcases List.mem_map.1 hkv with ⟨i, _, hkv'⟩
        rw [← hkv']
        show 1 ≤ ((i : Int) + 1) * 3 / 2
        omega
  | tBool =>
      rw [embTry_tBool] at htry
      exact Option.noConfusion htry

theorem noUserSetters_step (us : Unit) (t : Ty) :
    noUserSetters.step us t = (none, ()) := rfl

theorem forall₂_mem_right {α β : Type} {R : α → β → Prop} {l1 : List α}
    {l2 : List β} (h : List.Forall₂ R l1 l2) {b : β} (hb : b ∈ l2) :
    ∃ a ∈ l1, R a b := by
  induction h with
  | nil => cases hb
  | cons hr _ ih =>
      cases hb with
      | head => exact ⟨_, by simp, hr⟩
      | tail _ hb' =>
          rcases ih hb' with ⟨a, ha, har⟩
          exact ⟨a, List.mem_cons_of_mem _ ha, har⟩

/-- Specification of the generation pass with the embedded chain only:
names and categories follow the record type, unexported fields are
skipped, and every exported field receives the value of a fresh embedded
chain applied to its category (the chain is re-created for each field, so
the produced value is a function of the category alone) — a shaped value
by `embTry_shape`. -/
theorem genVals_builtin_shape :
    ∀ (flds : List (String × Ty)) (us : Unit)
      (gs : List (String × Ty × Option PureVal)),
      genVals noUserSetters us flds = some gs →
      List.Forall₂ (fun (nt : String × Ty) (g : String × Ty × Option PureVal) =>
          g.1 = nt.1 ∧ g.2.1 = nt.2 ∧
          (isExported nt.1 = false → g.2.2 = none) ∧
          (isExported nt.1 = true → ∃ p, g.2.2 = some p ∧ PvalShape nt.2 p ∧
            ∃ est', embTry embInit nt.2 = some (p, est')))
        flds gs := by
  intro flds
  induction flds with
  | nil =>
      intro us gs hgen
      simp only [genVals] at hgen
      injection hgen with h
      rw [← h]
      exact List.Forall₂.nil
  | cons nt rest ih =>
      intro us gs hgen
      obtain ⟨n, t⟩ := nt
      rcases hexp : isExported n with _ | _
      · simp only [genVals, hexp, Bool.false_eq_true, if_false] at hgen
        rcases hrest : genVals noUserSetters us rest with _ | gs2
        · rw [hrest] at hgen
          exact Option.noConfusion hgen
        · rw [hrest] at hgen
          simp only [Option.map] at hgen
          injection hgen with h
          rw [← h]
          refine List.Forall₂.cons ⟨rfl, rfl, fun _ => rfl, ?_⟩
            (ih us gs2 hrest)
          intro hfalse
          rw [hexp] at hfalse
          exact absurd hfalse (by simp)
      · simp only [genVals, hexp, noUserSetters_step, if_true] at hgen
        rcases htry : embTry embInit t with _ | ⟨p0, est1⟩
        · rw [htry] at hgen
          exact Option.noConfusion hgen
        · rw [htry] at hgen
          dsimp only at hgen
          rcases hrest : genVals noUserSetters () rest with _ | gs2
          · rw [hrest] at hgen
            exact Option.noConfusion hgen
          · rw [hrest] at hgen
            simp only [Option.map] at hgen
            injection hgen with h
            rw [← h]
            refine List.Forall₂.cons ⟨rfl, rfl, ?_, ?_⟩ (ih () gs2 hrest)
            · intro hfalse
              rw [hexp] at hfalse
              exact absurd hfalse (by simp)
            · intro _
              have hStOK : StOK embInit := ⟨by decide, by decide, by decide⟩
              exact ⟨p0, rfl, embTry_shape hStOK htry, est1, htry⟩

/-- C2 (code bug): contrary to the spec, a single `autoFill` pass with
the built-in generators gives any two exported fields of the same
category deep-EQUAL values: the source re-creates the embedded setter
chain (`EmbSetters()`) inside the per-field loop, so the internal call
counters reset for every field instead of growing across repeated
fields. -/
theorem autoFill_same_category_fields_equal :
    ∀ (ty : List (String × Ty)) (h h2 : Heap) (a : Addr) (i j : Nat)
      (ni nj : String) (t : Ty),
      autoFill noUserSetters ty h = some (h2, a) →
      ty.get? i = some (ni, t) → ty.get? j = some (nj, t) →
      isExported ni = true → isExported nj = true →
      ∃ fs vi vj, hGet h2 a = some (.oStruct fs) ∧
        fs.get? i = some (ni, vi) ∧ fs.get? j = some (nj, vj) ∧
        cvalEq (readVal h2 vi) (readVal h2 vj) = true := by
  intro ty h h2 a i j ni nj t hfill hti htj hexpi hexpj
  rcases autoFill_spec hfill with ⟨_, _, gs, fs, hgen, hget, hforall⟩
  have hf := genVals_builtin_shape ty noUserSetters.init gs hgen
  rcases List.get?_eq_some.1 hti with ⟨hilt, hgeti⟩
  rcases List.get?_eq_some.1 htj with ⟨hjlt, hgetj⟩
  have hlen1 : ty.length = gs.length := hf.length_eq
  have hlen2 : fs.length = gs.length := hforall.length_eq
  have hilt2 : i < gs.length := hlen1 ▸ hilt
  have hjlt2 : j < gs.length := hlen1 ▸ hjlt
  have hilt3 : i < fs.length := hlen2 ▸ hilt2
  have hjlt3 : j < fs.length := hlen2 ▸ hjlt2
  have hpredi := (List.forall₂_iff_get.1 hf).2 i hilt hilt2
  have hpredj := (List.forall₂_iff_get.1 hf).2 j hjlt hjlt2
  rw [hgeti] at hpredi
  rw [hgetj] at hpredj
  rcases hpredi.2.2.2 hexpi with ⟨pi, hpi, hpsi, esti, htryi⟩
  rcases hpredj.2.2.2 hexpj with ⟨pj, hpj, hpsj, estj, htryj⟩
  have hpij : pi = pj := by
    rw [htryi] at htryj
    injection htryj with hh
    injection hh with hh1 hh2
  have hfsi := (List.forall₂_iff_get.1 hforall).2 i hilt3 hilt2
  have hfsj := (List.forall₂_iff_get.1 hforall).2 j hjlt3 hjlt2
  have hri : readVal h2 (fs.get ⟨i, hilt3⟩).2 = pureCVal pi := by
    rw [hfsi.2.2]
    unfold gContent
    rw [hpi]
  have hrj : readVal h2 (fs.get ⟨j, hjlt3⟩).2 = pureCVal pj := by
    rw [hfsj.2.2]
    unfold gContent
    rw [hpj]
  refine ⟨fs, (fs.get ⟨i, hilt3⟩).2, (fs.get ⟨j, hjlt3⟩).2, hget, ?_, ?_, ?_⟩
  · rw [List.get?_eq_get hilt3]
    have hni : (fs.get ⟨i, hilt3⟩).1 = ni := by
      rw [hfsi.1, hpredi.1]
    rw [← hni]
  · rw [List.get?_eq_get hjlt3]
    have hnj : (fs.get ⟨j, hjlt3⟩).1 = nj := by
      rw [hfsj.1, hpredj.1]
    rw [← hnj]
  · rw [hri, hrj, hpij]
    exact cvalEq_refl (pureCVal_uniq pj)

/-- Witness for the C2 code bug at the record `{A int64; B int64}`: both
int64 fields receive the value 1. -/
theorem autoFill_same_category_fields_equal_witness :
    ∃ fs vi vj,
      hGet [.oStruct [("A", .vInt64 1), ("B", .vInt64 1)]] 0 =
        some (.oStruct fs) ∧
      fs.get? 0 = some ("A", vi) ∧ fs.get? 1 = some ("B", vj) ∧
      cvalEq (readVal [.oStruct [("A", .vInt64 1), ("B", .vInt64 1)]] vi)
        (readVal [.oStruct [("A", .vInt64 1), ("B", .vInt64 1)]] vj) =
        true :=
  autoFill_same_category_fields_equal
    [("A", .tInt64), ("B", .tInt64)] []
    [.oStruct [("A", .vInt64 1), ("B", .vInt64 1)]] 0 0 1 "A" "B" .tInt64
    (by decide) (by decide) (by decide) (by decide) (by decide)

/-! ## Inversion and computation helpers for the engine-level claims -/

theorem intsAt_inv {h : Heap} {b : Addr} {xs : List Int}
    (hx : intsAt h b = xs) (hne : xs ≠ []) : hGet h b = some (.oInts xs) := by
  unfold intsAt at hx
  rcases hget : hGet h b with _ | o
  · rw [hget] at hx
    exact absurd hx.symm hne
  · rw [hget] at hx
    cases o with
    | oInts ys =>
        dsimp only at hx
        rw [hx]
    | oStrs ys => exact absurd hx.symm hne
    | oMap es => exact absurd hx.symm hne
    | oStruct fs => exact absurd hx.symm hne

theorem strsAt_inv {h : Heap} {b : Addr} {xs : List String}
    (hx : strsAt h b = xs) (hne : xs ≠ []) : hGet h b = some (.oStrs xs) := by
  unfold strsAt at hx
  rcases hget : hGet h b with _ | o
  · rw [hget] at hx
    exact absurd hx.symm hne
  · rw [hget] at hx
    cases o with
    | oStrs ys =>
        dsimp only at hx
        rw [hx]
    | oInts ys => exact absurd hx.symm hne
    | oMap es => exact absurd hx.symm hne
    | oStruct fs => exact absurd hx.symm hne

theorem mapAt_inv {h : Heap} {b : Addr} {es : List (String × Int)}
    (hx : mapAt h b = es) (hne : es ≠ []) : hGet h b = some (.oMap es) := by
  unfold mapAt at hx
  rcases hget : hGet h b with _ | o
  · rw [hget] at hx
    exact absurd hx.symm hne
  · rw [hget] at hx
    cases o with
    | oMap ys =>
        dsimp only at hx
        rw [hx]
    | oInts ys => exact absurd hx.symm hne
    | oStrs ys => exact absurd hx.symm hne
    | oStruct fs => exact absurd hx.symm hne

theorem readVal_cInt_inv {h : Heap} {v : Value} {n : Int}
    (hr : readVal h v = .cInt n) : v = .vInt n := by
  cases v with
  | vInt m => injection hr with h'; rw [h']
  | vInt64 m => exact CVal.noConfusion hr
  | vBool b => exact CVal.noConfusion hr
  | vIntSlice oa => cases oa <;> exact CVal.noConfusion hr
  | vInt64Slice oa => cases oa <;> exact CVal.noConfusion hr
  | vStrSlice oa => cases oa <;> exact CVal.noConfusion hr
  | vMap oa => cases oa <;> exact CVal.noConfusion hr

theorem readVal_cInt64_inv {h : Heap} {v : Value} {n : Int}
    (hr : readVal h v = .cInt64 n) : v = .vInt64 n := by
  cases v with
  | vInt64 m => injection hr with h'; rw [h']
  | vInt m => exact CVal.noConfusion hr
  | vBool b => exact CVal.noConfusion hr
  | vIntSlice oa => cases oa <;> exact CVal.noConfusion hr
  | vInt64Slice oa => cases oa <;> exact CVal.noConfusion hr
  | vStrSlice oa => cases oa <;> exact CVal.noConfusion hr
  | vMap oa => cases oa <;> exact CVal.noConfusion hr

theorem readVal_cIntSlice_inv {h : Heap} {v : Value} {xs : List Int}
    (hr : readVal h v = .cIntSlice (some xs)) :
    ∃ b, v = .vIntSlice (some b) ∧ intsAt h b = xs := by
  cases v with
  | vIntSlice oa =>
      cases oa with
      | none => exact absurd hr (by simp [readVal])
      | some b =>
          refine ⟨b, rfl, ?_⟩
          simp only [readVal, CVal.cIntSlice.injEq, Option.some.injEq] at hr
          exact hr
  | vInt m => exact CVal.noConfusion hr
  | vInt64 m => exact CVal.noConfusion hr
  | vBool b => exact CVal.noConfusion hr
  | vInt64Slice oa => cases oa <;> exact CVal.noConfusion hr
  | vStrSlice oa => cases oa <;> exact CVal.noConfusion hr
  | vMap oa => cases oa <;> exact CVal.noConfusion hr

theorem readVal_cInt64Slice_inv {h : Heap} {v : Value} {xs : List Int}
    (hr : readVal h v = .cInt64Slice (some xs)) :
    ∃ b, v = .vInt64Slice (some b) ∧ intsAt h b = xs := by
  cases v with
  | vInt64Slice oa =>
      cases oa with
      | none => exact absurd hr (by simp [readVal])
      | some b =>
          refine ⟨b, rfl, ?_⟩
          simp only [readVal, CVal.cInt64Slice.injEq, Option.some.injEq] at hr
          exact hr
  | vInt m => exact CVal.noConfusion hr
  | vInt64 m => exact CVal.noConfusion hr
  | vBool b => exact CVal.noConfusion hr
  | vIntSlice oa => cases oa <;> exact CVal.noConfusion hr
  | vStrSlice oa => cases oa <;> exact CVal.noConfusion hr
  | vMap oa => cases oa <;> exact CVal.noConfusion hr

theorem readVal_cStrSlice_inv {h : Heap} {v : Value} {xs : List String}
    (hr : readVal h v = .cStrSlice (some xs)) :
    ∃ b, v = .vStrSlice (some b) ∧ strsAt h b = xs := by
  cases v with
  | vStrSlice oa =>
      cases oa with
      | none => exact absurd hr (by simp [readVal])
      | some b =>
          refine ⟨b, rfl, ?_⟩
          simp only [readVal, CVal.cStrSlice.injEq, Option.some.injEq] at hr
          exact hr
  | vInt m => exact CVal.noConfusion hr
  | vInt64 m => exact CVal.noConfusion hr
  | vBool b => exact CVal.noConfusion hr
  | vIntSlice oa => cases oa <;> exact CVal.noConfusion hr
  | vInt64Slice oa => cases oa <;> exact CVal.noConfusion hr
  | vMap oa => cases oa <;> exact CVal.noConfusion hr

theorem readVal_cMap_inv {h : Heap} {v : Value} {es : List (String × Int)}
    (hr : readVal h v = .cMap (some es)) :
    ∃ b, v = .vMap (some b) ∧ mapAt h b = es := by
  cases v with
  | vMap oa =>
      cases oa with
      | none => exact absurd hr (by simp [readVal])
      | some b =>
          refine ⟨b, rfl, ?_⟩
          simp only [readVal, CVal.cMap.injEq, Option.some.injEq] at hr
          exact hr
  | vInt m => exact CVal.noConfusion hr
  | vInt64 m => exact CVal.noConfusion hr
  | vBool b => exact CVal.noConfusion hr
  | vIntSlice oa => cases oa <;> exact CVal.noConfusion hr
  | vInt64Slice oa => cases oa <;> exact CVal.noConfusion hr
  | vStrSlice oa => cases oa <;> exact CVal.noConfusion hr

theorem set_get_ne_self {α : Type} {xs : List α} {i : Nat} {x y : α}
    (hx : xs.get? i = some x) (hne : y ≠ x) : xs.set i y ≠ xs := by
  intro hcon
  have hlt : i < xs.length := (List.get?_eq_some.1 hx).1
  have h1 : (xs.set i y).get? i = some y := by
    rw [List.get?_eq_getElem?]
    exact List.getElem?_set_self hlt
  rw [hcon, hx] at h1
  injection h1 with h2
  exact hne h2.symm

theorem str_append_self_ne {s : String} (hne : s ≠ "") : s ++ s ≠ s := by
  intro hcon
  have hlen := congrArg String.length hcon
  rw [String.length_append] at hlen
  have hzero : s.length = 0 := by omega
  apply hne
  have hdata : s.data.length = 0 := hzero
  have hnil : s.data = [] := List.length_eq_zero.1 hdata
  cases s with
  | mk data =>
      simp at hnil
      rw [hnil]

theorem mapEqB_cons_head_false {k : String} {w v : Int}
    {r : List (String × Int)} (hne : w ≠ v) :
    mapEqB ((k, w) :: r) ((k, v) :: r) = false := by
  by_contra hcon
  have htrue := Bool.of_not_eq_false hcon
  unfold mapEqB at htrue
  rw [Bool.and_eq_true, List.all_eq_true] at htrue
  have hhd := htrue.2 (k, w) (by simp)
  simp only [mapLookup, if_pos rfl] at hhd
  have := eq_of_beq hhd
  injection this with h'
  exact hne h'.symm

/-- `FieldSpec` is stable under changes to the heap outside `[lo, n)`. -/
theorem FieldSpec_ext' {lo n : Nat} {h h2 : Heap} {nv : String × Value}
    {g : String × Ty × Option PureVal}
    (hagree : ∀ x, lo ≤ x → x < n → hGet h2 x = hGet h x)
    (hspec : FieldSpec lo n h nv g) : FieldSpec lo n h2 nv g := by
  refine ⟨hspec.1, hspec.2.1, ?_⟩
  rw [readVal_congr (fun a ha => hagree a (hspec.2.1 a ha).1 (hspec.2.1 a ha).2)]
  exact hspec.2.2

theorem embTry_isSome_of_supported {est : EmbSt} {t : Ty}
    (hsupp : t.supported = true) : ∃ p est', embTry est t = some (p, est') := by
  cases t with
  | tInt => exact ⟨_, _, embTry_tInt est⟩
  | tInt64 => exact ⟨_, _, embTry_tInt64 est⟩
  | tIntSlice => exact ⟨_, _, embTry_tIntSlice est⟩
  | tInt64Slice => exact ⟨_, _, embTry_tInt64Slice est⟩
  | tStrSlice => exact ⟨_, _, embTry_tStrSlice est⟩
  | tMap => exact ⟨_, _, embTry_tMap est⟩
  | tBool => exact absurd hsupp (by simp [Ty.supported])

theorem genVals_builtin_isSome :
    ∀ (flds : List (String × Ty)) (us : Unit),
      (∀ nt ∈ flds, isExported nt.1 = true → nt.2.supported = true) →
      ∃ gs, genVals noUserSetters us flds = some gs := by
  intro flds
  induction flds with
  | nil => intro us _; exact ⟨[], rfl⟩
  | cons nt rest ih =>
      intro us hsupp
      obtain ⟨n, t⟩ := nt
      rcases hexp : isExported n with _ | _
      · obtain ⟨gs', hgs'⟩ := ih us
          (fun x hx he => hsupp x (List.mem_cons_of_mem _ hx) he)
        refine ⟨(n, t, none) :: gs', ?_⟩
        simp [genVals, hexp, hgs']
      · obtain ⟨p, est1, htry⟩ := @embTry_isSome_of_supported embInit t
          (hsupp (n, t) (by simp) hexp)
        obtain ⟨gs', hgs'⟩ := ih ()
          (fun x hx he => hsupp x (List.mem_cons_of_mem _ hx) he)
        refine ⟨(n, t, some p) :: gs', ?_⟩
        simp [genVals, hexp, noUserSetters_step, htry, hgs']

theorem autoFill_isSome {u : UserSC} {ty : List (String × Ty)}
    {gs : List (String × Ty × Option PureVal)}
    (hgen : genVals u u.init ty = some gs) (h : Heap) :
    ∃ h' a, autoFill u ty h = some (h', a) := by
  simp only [autoFill, hAlloc, hgen]
  exact ⟨_, _, rfl⟩

theorem Verify_eq_verifyFields {ty : List (String × Ty)} {u : UserSC}
    {uch : List Changer} {cloner : Cloner} {h1 h2 : Heap} {orig ref : Addr}
    (hf1 : autoFill u ty [] = some (h1, orig))
    (hf2 : autoFill u ty h1 = some (h2, ref))
    (hde : deepEq h2 orig ref = true) :
    Verify ty u uch cloner =
      verifyFields uch cloner orig ref h2 (structFields ty) := by
  unfold Verify
  rw [hf1]
  show (match autoFill u ty h1 with
    | none => VRes.errRefFill
    | some (h2, ref) =>
        if (!deepEq h2 orig ref) = true then VRes.errRefOrigEqual
        else verifyFields uch cloner orig ref h2 (structFields ty)) = _
  rw [hf2]
  show (if (!deepEq h2 orig ref) = true then VRes.errRefOrigEqual
    else verifyFields uch cloner orig ref h2 (structFields ty)) = _
  rw [hde]
  rfl

theorem findIdx?_spec {α : Type} (p : α → Bool) :
    ∀ (l : List α) (i : Nat), (∃ x ∈ l, p x = true) →
      ∃ k x, List.findIdx? p l i = some (i + k) ∧ l.get? k = some x ∧
        p x = true := by
  intro l
  induction l with
  | nil =>
      intro i hx
      rcases hx with ⟨x, hmem, _⟩
      cases hmem
  | cons a rest ih =>
      intro i hx
      rcases hp : p a with _ | _
      · have hx' : ∃ x ∈ rest, p x = true := by
          rcases hx with ⟨x, hmem, hpx⟩
          cases hmem with
          | head => rw [hp] at hpx; exact absurd hpx (by simp)
          | tail _ hmem' => exact ⟨x, hmem', hpx⟩
        rcases ih (i + 1) hx' with ⟨k, x, hfind, hget, hpx⟩
        refine ⟨k + 1, x, ?_, hget, hpx⟩
        simp only [List.findIdx?, hp, Bool.false_eq_true, if_false]
        rw [hfind]
        congr 1
        omega
      · refine ⟨0, a, ?_, rfl, hp⟩
        simp [List.findIdx?, hp]

theorem findFieldIdx_some_of_mem {fs : List (String × Value)} {f : String}
    (hmem : ∃ nv ∈ fs, nv.1 = f) :
    ∃ k nv, findFieldIdx fs f = some k ∧ fs.get? k = some nv ∧ nv.1 = f := by
  have hx : ∃ nv ∈ fs, (decide (nv.1 = f)) = true := by
    rcases hmem with ⟨nv, hnv, hf⟩
    exact ⟨nv, hnv, decide_eq_true hf⟩
  rcases findIdx?_spec (fun nv => nv.1 = f) fs 0 hx with ⟨k, nv, hfind, hget, hp⟩
  refine ⟨k, nv, ?_, hget, of_decide_eq_true hp⟩
  unfold findFieldIdx
  rw [hfind]
  simp

/-! ## Claim C3: the identity cloner -/

/-- Mutating a field that holds an embedded-setter value always changes
its dereferenced content: some embedded changer succeeds, writes only at
the field's own reference address (if any), keeps the field's reference
address, and the new content is no longer deep-equal to the old one. -/
theorem builtin_mutation_changes :
    ∀ (t : Ty) (p : PureVal) (h : Heap) (v : Value), PvalShape t p →
      readVal h v = pureCVal p →
      ∃ h' v', tryChangers embChangers h v = .ok h' v' ∧
        vAddr v' = vAddr v ∧
        (h' = h ∨ ∃ b, vAddr v = some b ∧ b < h.length ∧
          ∃ o, h' = hSet h b o) ∧
        cvalEq (readVal h' v') (pureCVal p) = false := by
  intro t p h v hs hr
  cases t with
  | tInt =>
      cases p <;> try exact False.elim hs
      next n =>
        have hv : v = .vInt n := readVal_cInt_inv hr
        subst hv
        refine ⟨h, .vInt (wrap64 (n * initialSeed)), rfl, rfl, Or.inl rfl, ?_⟩
        have hne : CVal.cInt (wrap64 (n * initialSeed)) ≠ CVal.cInt n := by
          intro hcon
          injection hcon with h'
          exact wrap64_mul_two_ne hs h'
        show (CVal.cInt (wrap64 (n * initialSeed)) == CVal.cInt n) = false
        exact beq_eq_false_iff_ne.2 hne
  | tInt64 =>
      cases p <;> try exact False.elim hs
      next n =>
        have hv : v = .vInt64 n := readVal_cInt64_inv hr
        subst hv
        refine ⟨h, .vInt64 (wrap64 (n * initialSeed)), rfl, rfl,
          Or.inl rfl, ?_⟩
        have hne : CVal.cInt64 (wrap64 (n * initialSeed)) ≠ CVal.cInt64 n := by
          intro hcon
          injection hcon with h'
          exact wrap64_mul_two_ne hs h'
        show (CVal.cInt64 (wrap64 (n * initialSeed)) == CVal.cInt64 n) = false
        exact beq_eq_false_iff_ne.2 hne
  | tIntSlice =>
      cases p <;> try exact False.elim hs
      next xs =>
        obtain ⟨hlen, x, hlast, hx1⟩ := hs
        rcases readVal_cIntSlice_inv hr with ⟨b, hv, hxs⟩
        subst hv
        have hne : xs ≠ [] := by
          intro hcon
          rw [hcon] at hlen
          simp at hlen
        have hgetb : hGet h b = some (.oInts xs) := intsAt_inv hxs hne
        have hblt : b < h.length := hGet_lt_length hgetb
        have htc : tryChangers embChangers h (.vIntSlice (some b)) =
            .ok (hSet h b (.oInts
              (xs.set (xs.length - 1) (wrap64 (x * initialSeed)))))
              (.vIntSlice (some b)) := by
          simp only [tryChangers, embChangers, chInt, chInt64, chIntSlice,
            mulLastInts, hgetb, hlast]
        refine ⟨_, _, htc, rfl, Or.inr ⟨b, rfl, hblt, _, rfl⟩, ?_⟩
        have hisx : intsAt (hSet h b (.oInts
            (xs.set (xs.length - 1) (wrap64 (x * initialSeed))))) b =
            xs.set (xs.length - 1) (wrap64 (x * initialSeed)) := by
          unfold intsAt
          rw [hGet_set_self _ hblt]
        have hrv : readVal (hSet h b (.oInts
            (xs.set (xs.length - 1) (wrap64 (x * initialSeed)))))
            (.vIntSlice (some b)) = .cIntSlice (some
              (xs.set (xs.length - 1) (wrap64 (x * initialSeed)))) := by
          simp [readVal, hisx]
        rw [hrv]
        have hxsne : xs.set (xs.length - 1) (wrap64 (x * initialSeed)) ≠ xs :=
          set_get_ne_self hlast (wrap64_mul_two_ne hx1)
        show (CVal.cIntSlice (some
          (xs.set (xs.length - 1) (wrap64 (x * initialSeed)))) ==
          CVal.cIntSlice (some xs)) = false
        refine beq_eq_false_iff_ne.2 ?_
        intro hcon
        injection hcon with h1
        injection h1 with h2
        exact hxsne h2
  | tInt64Slice =>
      cases p <;> try exact False.elim hs
      next xs =>
        obtain ⟨hlen, x, hlast, hx1⟩ := hs
        rcases readVal_cInt64Slice_inv hr with ⟨b, hv, hxs⟩
        subst hv
        have hne : xs ≠ [] := by
          intro hcon
          rw [hcon] at hlen
          simp at hlen
        have hgetb : hGet h b = some (.oInts xs) := intsAt_inv hxs hne
        have hblt : b < h.length := hGet_lt_length hgetb
        have htc : tryChangers embChangers h (.vInt64Slice (some b)) =
            .ok (hSet h b (.oInts
              (xs.set (xs.length - 1) (wrap64 (x * initialSeed)))))
              (.vInt64Slice (some b)) := by
          simp only [tryChangers, embChangers, chInt, chInt64, chIntSlice,
            chInt64Slice, mulLastInts, hgetb, hlast]
        refine ⟨_, _, htc, rfl, Or.inr ⟨b, rfl, hblt, _, rfl⟩, ?_⟩
        have hisx : intsAt (hSet h b (.oInts
            (xs.set (xs.length - 1) (wrap64 (x * initialSeed))))) b =
            xs.set (xs.length - 1) (wrap64 (x * initialSeed)) := by
          unfold intsAt
          rw [hGet_set_self _ hblt]
        have hrv : readVal (hSet h b (.oInts
            (xs.set (xs.length - 1) (wrap64 (x * initialSeed)))))
            (.vInt64Slice (some b)) = .cInt64Slice (some
              (xs.set (xs.length - 1) (wrap64 (x * initialSeed)))) := by
          simp [readVal, hisx]
        rw [hrv]
        have hxsne : xs.set (xs.length - 1) (wrap64 (x * initialSeed)) ≠ xs :=
          set_get_ne_self hlast (wrap64_mul_two_ne hx1)
        show (CVal.cInt64Slice (some
          (xs.set (xs.length - 1) (wrap64 (x * initialSeed)))) ==
          CVal.cInt64Slice (some xs)) = false
        refine beq_eq_false_iff_ne.2 ?_
        intro hcon
        injection hcon with h1
        injection h1 with h2
        exact hxsne h2
  | tStrSlice =>
      cases p <;> try exact False.elim hs
      next xs =>
        obtain ⟨hlen, x, hlast, hx1⟩ := hs
        rcases readVal_cStrSlice_inv hr with ⟨b, hv, hxs⟩
        subst hv
        have hne : xs ≠ [] := by
          intro hcon
          rw [hcon] at hlen
          simp at hlen
        have hgetb : hGet h b = some (.oStrs xs) := strsAt_inv hxs hne
        have hblt : b < h.length := hGet_lt_length hgetb
        have htc : tryChangers embChangers h (.vStrSlice (some b)) =
            .ok (hSet h b (.oStrs (xs.set (xs.length - 1) (x ++ x))))
              (.vStrSlice (some b)) := by
          simp only [tryChangers, embChangers, chInt, chInt64, chIntSlice,
            chInt64Slice, chStrSlice, hgetb, hlast]
        refine ⟨_, _, htc, rfl, Or.inr ⟨b, rfl, hblt, _, rfl⟩, ?_⟩
        have hisx : strsAt (hSet h b (.oStrs
            (xs.set (xs.length - 1) (x ++ x)))) b =
            xs.set (xs.length - 1) (x ++ x) := by
          unfold strsAt
          rw [hGet_set_self _ hblt]
        have hrv : readVal (hSet h b (.oStrs
            (xs.set (xs.length - 1) (x ++ x)))) (.vStrSlice (some b)) =
            .cStrSlice (some (xs.set (xs.length - 1) (x ++ x))) := by
          simp [readVal, hisx]
        rw [hrv]
        have hxsne : xs.set (xs.length - 1) (x ++ x) ≠ xs :=
          set_get_ne_self hlast (str_append_self_ne hx1)
        show (CVal.cStrSlice (some (xs.set (xs.length - 1) (x ++ x))) ==
          CVal.cStrSlice (some xs)) = false
        refine beq_eq_false_iff_ne.2 ?_
        intro hcon
        injection hcon with h1
        injection h1 with h2
        exact hxsne h2
  | tMap =>
      cases p <;> try exact False.elim hs
      next es =>
        obtain ⟨hlen, hnd, hval⟩ := hs
        have he1 : mapInsertAll [] es = es := by
          rw [mapInsertAll_of_nodup [] hnd (by simp)]
          exact List.nil_append es
        have hr' : readVal h v = .cMap (some es) := by
          rw [hr]
          show CVal.cMap (some (mapInsertAll [] es)) = _
          rw [he1]
        rcases readVal_cMap_inv hr' with ⟨b, hv, hes⟩
        subst hv
        cases es with
        | nil => simp at hlen
        | cons kv rest =>
            obtain ⟨k0, v0⟩ := kv
            have hgetb : hGet h b = some (.oMap ((k0, v0) :: rest)) :=
              mapAt_inv hes (by simp)
            have hblt : b < h.length := hGet_lt_length hgetb
            have htc : tryChangers embChangers h (.vMap (some b)) =
                .ok (hSet h b (.oMap
                  ((k0, wrap64 (v0 * initialSeed)) :: rest)))
                  (.vMap (some b)) := by
              simp only [tryChangers, embChangers, chInt, chInt64, chIntSlice,
                chInt64Slice, chStrSlice, chMap, hgetb]
            refine ⟨_, _, htc, rfl, Or.inr ⟨b, rfl, hblt, _, rfl⟩, ?_⟩
            have hisx : mapAt (hSet h b (.oMap
                ((k0, wrap64 (v0 * initialSeed)) :: rest))) b =
                (k0, wrap64 (v0 * initialSeed)) :: rest := by
              unfold mapAt
              rw [hGet_set_self _ hblt]
            have hrv : readVal (hSet h b (.oMap
                ((k0, wrap64 (v0 * initialSeed)) :: rest))) (.vMap (some b)) =
                .cMap (some ((k0, wrap64 (v0 * initialSeed)) :: rest)) := by
              simp [readVal, hisx]
            rw [hrv]
            show cvalEq (.cMap (some ((k0, wrap64 (v0 * initialSeed)) :: rest)))
              (.cMap (some (mapInsertAll [] ((k0, v0) :: rest)))) = false
            rw [he1]
            show mapEqB ((k0, wrap64 (v0 * initialSeed)) :: rest)
              ((k0, v0) :: rest) = false
            refine mapEqB_cons_head_false ?_
            exact wrap64_mul_two_ne (hval (k0, v0) (by simp))
  | tBool => exact False.elim hs

/-- Counterexample to C3 as stated: for the empty record type every
exported field vacuously has a supported, mutable category, yet `Verify`
with the identity cloner returns nil (`ok`) — the per-field loop runs
zero iterations, so neither `CloneOrigEqual` nor `OrigChanged` fires. -/
theorem identity_cloner_empty_type_ok :
    Verify ([] : List (String × Ty)) noUserSetters [] idCloner = .ok := by
  decide

/-- C3 (amended: the record type must have at least one exported field):
for every record type with an exported field, all of whose exported
fields have supported categories, `Verify` with the identity cloner
returns `OrigChanged` or `CloneOrigEqual` on some field — never nil and
never any other outcome. -/
theorem identity_cloner_yields_orig_changed_or_clone_orig_equal :
    ∀ (ty : List (String × Ty)),
      (∃ nt ∈ ty, isExported nt.1 = true) →
      (∀ nt ∈ ty, isExported nt.1 = true → nt.2.supported = true) →
      ∃ f, Verify ty noUserSetters [] idCloner = .errOrigChanged f ∨
        Verify ty noUserSetters [] idCloner = .errCloneOrigEqual f := by
  intro ty hex hsupp
  obtain ⟨gs0, hgen0⟩ :=
    genVals_builtin_isSome ty noUserSetters.init hsupp
  obtain ⟨h1, orig, hf1⟩ := autoFill_isSome hgen0 []
  obtain ⟨h2, ref, hf2⟩ := autoFill_isSome hgen0 h1
  have hde12 : deepEq h2 orig ref = true := autoFill_deterministic hf1 hf2
  have hVeq : Verify ty noUserSetters [] idCloner =
      verifyFields [] idCloner orig ref h2 (structFields ty) :=
    Verify_eq_verifyFields hf1 hf2 hde12
  rcases autoFill_spec hf1 with
    ⟨horig0, ⟨ext1, hext1⟩, gs, fs, hgen, hget1, hforall1⟩
  rcases autoFill_spec hf2 with
    ⟨href0, ⟨ext2, hext2⟩, gs', fs2, hgen2, hget2, hforall2⟩
  have horig : orig = 0 := horig0
  have hgs : gs' = gs := by
    rw [hgen] at hgen2
    injection hgen2 with hh
    exact hh.symm
  rw [hgs] at hforall2
  have hagree12 : ∀ x, x < h1.length → hGet h2 x = hGet h1 x := by
    intro x hx
    rw [hext2]
    exact hGet_append_left ext2 hx
  have horig_lt : orig < h1.length := hGet_lt_length hget1
  have hget1' : hGet h2 orig = some (.oStruct fs) := by
    rw [hagree12 orig horig_lt]
    exact hget1
  have hforall1' : List.Forall₂ (FieldSpec 1 h1.length h2) fs gs :=
    hforall1.imp (fun {nv} {g} hs => FieldSpec_ext hagree12 hs)
  have hlen12 : h1.length ≤ h2.length := by
    rw [hext2]
    simp
  have hfm := genVals_builtin_shape ty noUserSetters.init gs hgen
  have hsf : structFields ty =
      (ty.filter (fun nt => isExported nt.1)).map Prod.fst := by
    show structFieldsLoop [] ty = _
    rw [structFieldsLoop_eq ty []]
    rfl
  rcases hex with ⟨nt0, hnt0mem, hnt0exp⟩
  have hfmem : nt0.1 ∈ structFields ty := by
    rw [hsf]
    exact List.mem_map.2 ⟨nt0, List.mem_filter.2 ⟨hnt0mem, hnt0exp⟩, rfl⟩
  rcases hsfl : structFields ty with _ | ⟨f, rest⟩
  · rw [hsfl] at hfmem
    cases hfmem
  · have hfhead : f ∈ structFields ty := by
      rw [hsfl]
      exact List.mem_cons_self f rest
    rw [hsf] at hfhead
    rcases List.mem_map.1 hfhead with ⟨ntf, hntf_fil, hntf1⟩
    rcases List.mem_filter.1 hntf_fil with ⟨hntf_mem, hntf_exp⟩
    have hfexp : isExported f = true := by
      rw [← hntf1]
      exact hntf_exp
    rcases List.mem_iff_get?.1 hntf_mem with ⟨i, htyi⟩
    rcases List.get?_eq_some.1 htyi with ⟨hilt, hgeti⟩
    have hleng : ty.length = gs.length := hfm.length_eq
    have hlenf : fs.length = gs.length := hforall1.length_eq
    have hilt2 : i < gs.length := hleng ▸ hilt
    have hilt3 : i < fs.length := hlenf ▸ hilt2
    have hpredi := (List.forall₂_iff_get.1 hfm).2 i hilt hilt2
    rw [hgeti] at hpredi
    have hfsi := (List.forall₂_iff_get.1 hforall1').2 i hilt3 hilt2
    have hname : (fs.get ⟨i, hilt3⟩).1 = f := by
      rw [hfsi.1, hpredi.1, hntf1]
    have hmemf : ∃ nv ∈ fs, nv.1 = f :=
      ⟨fs.get ⟨i, hilt3⟩, List.get_mem fs i hilt3, hname⟩
    rcases findFieldIdx_some_of_mem hmemf with ⟨k, nvk, hfind, hgetk, hnvk1⟩
    obtain ⟨nk, vk⟩ := nvk
    have hnk : nk = f := hnvk1
    rcases List.get?_eq_some.1 hgetk with ⟨hklt3, hgk⟩
    have hklt2 : k < gs.length := hlenf ▸ hklt3
    have hklt : k < ty.length := by omega
    have hpredk := (List.forall₂_iff_get.1 hfm).2 k hklt hklt2
    have hfsk := (List.forall₂_iff_get.1 hforall1').2 k hklt3 hklt2
    rw [hgk] at hfsk
    have hexpk : isExported (ty.get ⟨k, hklt⟩).1 = true := by
      rw [← hpredk.1, ← hfsk.1, hnk]
      exact hfexp
    rcases hpredk.2.2.2 hexpk with ⟨pk, hpk, hpsk, _, _⟩
    have hreadk : readVal h2 vk = pureCVal pk := by
      have hg := hfsk.2.2
      unfold gContent at hg
      rw [hpk] at hg
      exact hg
    rcases builtin_mutation_changes (ty.get ⟨k, hklt⟩).2 pk h2 vk hpsk hreadk
      with ⟨h3, v', htc, hvaddr, hframe, hcval⟩
    have hac : autoChange [] h2 orig f =
        .ok (hSet h3 orig (.oStruct (fs.set k (nk, v')))) := by
      simp only [autoChange, hget1', hfind, hgetk, List.nil_append, htc]
    have hlen3 : h3.length = h2.length := by
      rcases hframe with hfr | ⟨b, hb, hblt, o, hfr⟩
      · rw [hfr]
      · rw [hfr, hSet_length]
    have hagree_hi : ∀ x, h1.length ≤ x →
        hGet (hSet h3 orig (.oStruct (fs.set k (nk, v')))) x = hGet h2 x := by
      intro x hx
      have h40 : hGet (hSet h3 orig (.oStruct (fs.set k (nk, v')))) x =
          hGet h3 x :=
        hGet_set_ne h3 orig x _ (Nat.ne_of_lt (lt_of_lt_of_le horig_lt hx))
      rcases hframe with hfr | ⟨b, hb, hblt, o, hfr⟩
      · rw [h40, hfr]
      · rcases hfsk.2.1 b hb with ⟨hb1, hb2⟩
        rw [h40, hfr]
        exact hGet_set_ne h2 b x o (Nat.ne_of_lt (lt_of_lt_of_le hb2 hx))
    have hforall2' : List.Forall₂
        (FieldSpec (h1.length + 1) h2.length
          (hSet h3 orig (.oStruct (fs.set k (nk, v'))))) fs2 gs :=
      hforall2.imp (fun {nv} {g} hs =>
        FieldSpec_ext' (fun x hx1 hx2 =>
          hagree_hi x (Nat.le_of_succ_le hx1)) hs)
    have hget2' : hGet (hSet h3 orig (.oStruct (fs.set k (nk, v')))) ref =
        some (.oStruct fs2) := by
      rw [hagree_hi ref (le_of_eq href0.symm)]
      exact hget2
    have hrs_ref4 : readStruct (hSet h3 orig (.oStruct (fs.set k (nk, v'))))
        ref = some (gs.map (fun g => (g.1, gContent g))) :=
      readStruct_of_forall₂ hget2' hforall2'
    have hget_orig4 : hGet (hSet h3 orig (.oStruct (fs.set k (nk, v')))) orig =
        some (.oStruct (fs.set k (nk, v'))) :=
      hGet_set_self _
        (lt_of_lt_of_le horig_lt (hlen12.trans (le_of_eq hlen3.symm)))
    have hrs_orig4 : readStruct (hSet h3 orig (.oStruct (fs.set k (nk, v'))))
        orig = some ((fs.set k (nk, v')).map (fun nv => (nv.1,
          readVal (hSet h3 orig (.oStruct (fs.set k (nk, v')))) nv.2))) := by
      unfold readStruct
      rw [hget_orig4]
    have hrv4 : readVal (hSet h3 orig (.oStruct (fs.set k (nk, v')))) v' =
        readVal h3 v' := by
      refine readVal_congr (fun a ha => ?_)
      have havk : vAddr vk = some a := by
        rw [← hvaddr]
        exact ha
      rcases hfsk.2.1 a havk with ⟨ha1, ha2⟩
      rw [horig]
      exact hGet_set_ne h3 0 a _ (Nat.ne_of_lt ha1)
    have hcval4 : cvalEq
        (readVal (hSet h3 orig (.oStruct (fs.set k (nk, v')))) v')
        (pureCVal pk) = false := by
      rw [hrv4]
      exact hcval
    have hfs'k : (fs.set k (nk, v')).get? k = some (nk, v') := by
      rw [List.get?_eq_getElem?]
      exact List.getElem?_set_self hklt3
    have hgc : gContent (gs.get ⟨k, hklt2⟩) = pureCVal pk := by
      unfold gContent
      rw [hpk]
    have hx : ((fs.set k (nk, v')).map (fun nv => (nv.1,
        readVal (hSet h3 orig (.oStruct (fs.set k (nk, v')))) nv.2))).get? k =
        some (nk, readVal (hSet h3 orig (.oStruct (fs.set k (nk, v')))) v') := by
      rw [List.get?_map, hfs'k]
      rfl
    have hy : (gs.map (fun g => (g.1, gContent g))).get? k =
        some ((gs.get ⟨k, hklt2⟩).1, pureCVal pk) := by
      rw [List.get?_map, List.get?_eq_get hklt2]
      show some ((gs.get ⟨k, hklt2⟩).1, gContent (gs.get ⟨k, hklt2⟩)) = _
      rw [hgc]
    have hde_or : deepEq (hSet h3 orig (.oStruct (fs.set k (nk, v'))))
        orig ref = false := by
      unfold deepEq
      rw [hrs_orig4, hrs_ref4]
      exact cfieldsEq_false_of_get? hx hy hcval4
    have hrs_orig : readStruct h2 orig =
        some (gs.map (fun g => (g.1, gContent g))) :=
      readStruct_of_forall₂ hget1' hforall1'
    have hde_oo : deepEq h2 orig orig = true := by
      unfold deepEq
      rw [hrs_orig]
      exact cfieldsEq_refl canonical_uniq
    refine ⟨f, Or.inl ?_⟩
    rw [hVeq, hsfl]
    simp only [verifyFields, idCloner, hde_oo, Bool.not_true,
      Bool.false_eq_true, if_false, hac, hde_or, Bool.not_false, if_true]

/-- Witness for the amended C3 at the one-field record `{A int64}`. -/
theorem identity_cloner_yields_orig_changed_or_clone_orig_equal_witness :
    (∃ nt ∈ [("A", Ty.tInt64)], isExported nt.1 = true) ∧
    (∀ nt ∈ [("A", Ty.tInt64)], isExported nt.1 = true →
      nt.2.supported = true) ∧
    ∃ f, Verify [("A", Ty.tInt64)] noUserSetters [] idCloner =
        .errOrigChanged f ∨
      Verify [("A", Ty.tInt64)] noUserSetters [] idCloner =
        .errCloneOrigEqual f :=
  ⟨by decide, by decide,
    identity_cloner_yields_orig_changed_or_clone_orig_equal
      [("A", Ty.tInt64)] (by decide) (by decide)⟩

/-! ## Claim C10: slice mutators and the out-of-bounds branch -/







theorem ChangerStep_toHeapStep {h h' : Heap} (hs : ChangerStep h h') :
    HeapStep h h' := by
  rcases hs with hfr | ⟨b, ⟨xs, xs', hget, hlen, hset⟩ |
    ⟨xs, xs', hget, hlen, hset⟩ | ⟨es, es', hget, hlen, hset⟩⟩
  · exact Or.inl hfr
  · exact Or.inr ⟨b, _, _, hget, hset, hlen⟩
  · exact Or.inr ⟨b, _, _, hget, hset, hlen⟩
  · exact Or.inr ⟨b, _, _, hget, hset, hlen⟩

theorem ChangerStep_struct {h h' : Heap} {c : Addr}
    {fs : List (String × Value)} (hs : ChangerStep h h')
    (hget : hGet h c = some (.oStruct fs)) :
    hGet h' c = some (.oStruct fs) := by
  rcases hs with hfr | ⟨b, hcase⟩
  · rw [hfr]
    exact hget
  · have hbc : b ≠ c := by
      intro hh
      subst hh
      rcases hcase with ⟨xs, xs', hg, _, _⟩ | ⟨xs, xs', hg, _, _⟩ |
        ⟨es, es', hg, _, _⟩ <;>
        · rw [hget] at hg
          exact Obj.noConfusion (Option.some.inj hg)
    rcases hcase with ⟨xs, xs', hg, hlen, hset⟩ | ⟨xs, xs', hg, hlen, hset⟩ |
      ⟨es, es', hg, hlen, hset⟩ <;>
      · rw [hset, hGet_set_ne h b c _ hbc]
        exact hget

/-- A safe content's reference address points at a real object. -/
theorem SafeC_hGet {h : Heap} {v : Value} {a : Addr}
    (hs : SafeC (readVal h v)) (ha : vAddr v = some a) :
    ∃ o, hGet h a = some o := by
  cases v with
  | vInt n => exact Option.noConfusion ha
  | vInt64 n => exact Option.noConfusion ha
  | vBool b => exact Option.noConfusion ha
  | vIntSlice ob =>
      cases ob with
      | none => exact Option.noConfusion ha
      | some c0 =>
          injection ha with ha'
          subst ha'
          rcases hs with ⟨xs, hxs, hne⟩
          injection hxs with hxs'
          exact ⟨_, intsAt_inv hxs' hne⟩
  | vInt64Slice ob =>
      cases ob with
      | none => exact Option.noConfusion ha
      | some c0 =>
          injection ha with ha'
          subst ha'
          rcases hs with ⟨xs, hxs, hne⟩
          injection hxs with hxs'
          exact ⟨_, intsAt_inv hxs' hne⟩
  | vStrSlice ob =>
      cases ob with
      | none => exact Option.noConfusion ha
      | some c0 =>
          injection ha with ha'
          subst ha'
          rcases hs with ⟨xs, hxs, hne⟩
          injection hxs with hxs'
          exact ⟨_, strsAt_inv hxs' hne⟩
  | vMap ob =>
      cases ob with
      | none => exact Option.noConfusion ha
      | some c0 =>
          injection ha with ha'
          subst ha'
          rcases hs with hl | ⟨m, hm, hmne⟩
          · exact absurd hl (by simp)
          · injection hm with hm'
            exact ⟨_, mapAt_inv hm' hmne⟩

theorem readVal_append_of_safe {h ext : Heap} {v : Value}
    (hs : SafeC (readVal h v)) : readVal (h ++ ext) v = readVal h v := by
  refine readVal_congr (fun a ha => ?_)
  rcases SafeC_hGet hs ha with ⟨o, ho⟩
  exact hGet_append_left ext (hGet_lt_length ho)

theorem InvAt_append {h : Heap} {orig : Addr} (ext : Heap)
    (hinv : InvAt h orig) : InvAt (h ++ ext) orig := by
  rcases hinv with ⟨ofs, hofs, hsafe⟩
  refine ⟨ofs, ?_, ?_⟩
  · rw [hGet_append_left ext (hGet_lt_length hofs)]
    exact hofs
  · intro nv hnv hexp
    rw [readVal_append_of_safe (hsafe nv hnv hexp)]
    exact hsafe nv hnv hexp

/-- Content safety is preserved by kind- and size-preserving single
writes. -/
theorem SafeC_step {h h' : Heap} {v : Value} (hstep : HeapStep h h')
    (hs : SafeC (readVal h v)) : SafeC (readVal h' v) := by
  rcases hstep with hfr | ⟨b, o, o', hgetb, hset, hcompat⟩
  · rw [hfr]
    exact hs
  · cases v with
    | vInt n => exact hs
    | vInt64 n => exact hs
    | vBool bb => exact hs
    | vIntSlice ob =>
        cases ob with
        | none => exact hs
        | some c0 =>
            rcases hs with ⟨xs, hxs, hne⟩
            injection hxs with hxs'
            have hget0 : hGet h c0 = some (.oInts xs) := intsAt_inv hxs' hne
            by_cases hcb : b = c0
            · subst hcb
              rw [hget0] at hgetb
              injection hgetb with ho
              subst ho
              cases o' with
              | oInts xs' =>
                  have hlen : xs.length = xs'.length := hcompat
                  have hlt : b < h.length := hGet_lt_length hget0
                  refine ⟨xs', ?_, ?_⟩
                  · show some (intsAt h' b) = some xs'
                    rw [hset]
                    unfold intsAt
                    rw [hGet_set_self _ hlt]
                  · intro hcon
                    apply hne
                    rw [hcon] at hlen
                    exact List.length_eq_zero.1 hlen
              | oStrs _ => exact False.elim hcompat
              | oMap _ => exact False.elim hcompat
              | oStruct _ => exact False.elim hcompat
            · refine ⟨xs, ?_, hne⟩
              show some (intsAt h' c0) = some xs
              rw [hset]
              unfold intsAt
              rw [hGet_set_ne h b c0 o' hcb, hget0]
    | vInt64Slice ob =>
        cases ob with
        | none => exact hs
        | some c0 =>
            rcases hs with ⟨xs, hxs, hne⟩
            injection hxs with hxs'
            have hget0 : hGet h c0 = some (.oInts xs) := intsAt_inv hxs' hne
            by_cases hcb : b = c0
            · subst hcb
              rw [hget0] at hgetb
              injection hgetb with ho
              subst ho
              cases o' with
              | oInts xs' =>
                  have hlen : xs.length = xs'.length := hcompat
                  have hlt : b < h.length := hGet_lt_length hget0
                  refine ⟨xs', ?_, ?_⟩
                  · show some (intsAt h' b) = some xs'
                    rw [hset]
                    unfold intsAt
                    rw [hGet_set_self _ hlt]
                  · intro hcon
                    apply hne
                    rw [hcon] at hlen
                    exact List.length_eq_zero.1 hlen
              | oStrs _ => exact False.elim hcompat
              | oMap _ => exact False.elim hcompat
              | oStruct _ => exact False.elim hcompat
            · refine ⟨xs, ?_, hne⟩
              show some (intsAt h' c0) = some xs
              rw [hset]
              unfold intsAt
              rw [hGet_set_ne h b c0 o' hcb, hget0]
    | vStrSlice ob =>
        cases ob with
        | none => exact hs
        | some c0 =>
            rcases hs with ⟨xs, hxs, hne⟩
            injection hxs with hxs'
            have hget0 : hGet h c0 = some (.oStrs xs) := strsAt_inv hxs' hne
            by_cases hcb : b = c0
            · subst hcb
              rw [hget0] at hgetb
              injection hgetb with ho
              subst ho
              cases o' with
              | oStrs xs' =>
                  have hlen : xs.length = xs'.length := hcompat
                  have hlt : b < h.length := hGet_lt_length hget0
                  refine ⟨xs', ?_, ?_⟩
                  · show some (strsAt h' b) = some xs'
                    rw [hset]
                    unfold strsAt
                    rw [hGet_set_self _ hlt]
                  · intro hcon
                    apply hne
                    rw [hcon] at hlen
                    exact List.length_eq_zero.1 hlen
              | oInts _ => exact False.elim hcompat
              | oMap _ => exact False.elim hcompat
              | oStruct _ => exact False.elim hcompat
            · refine ⟨xs, ?_, hne⟩
              show some (strsAt h' c0) = some xs
              rw [hset]
              unfold strsAt
              rw [hGet_set_ne h b c0 o' hcb, hget0]
    | vMap ob =>
        cases ob with
        | none => exact hs
        | some c0 =>
            rcases hs with hl | ⟨m, hm, hmne⟩
            · exact absurd hl (by simp)
            · injection hm with hm'
              have hget0 : hGet h c0 = some (.oMap m) := mapAt_inv hm' hmne
              by_cases hcb : b = c0
              · subst hcb
                rw [hget0] at hgetb
                injection hgetb with ho
                subst ho
                cases o' with
                | oMap es' =>
                    have hlen : m.length = es'.length := hcompat
                    have hlt : b < h.length := hGet_lt_length hget0
                    refine Or.inr ⟨es', ?_, ?_⟩
                    · show some (mapAt h' b) = some es'
                      rw [hset]
                      unfold mapAt
                      rw [hGet_set_self _ hlt]
                    · intro hcon
                      apply hmne
                      rw [hcon] at hlen
                      exact List.length_eq_zero.1 hlen
                | oInts _ => exact False.elim hcompat
                | oStrs _ => exact False.elim hcompat
                | oStruct _ => exact False.elim hcompat
              · refine Or.inr ⟨m, ?_, hmne⟩
                show some (mapAt h' c0) = some m
                rw [hset]
                unfold mapAt
                rw [hGet_set_ne h b c0 o' hcb, hget0]

/-- A field value whose content is deep-equal to a safe content is itself
safe for the embedded changers. -/
theorem safeVal_of_cvalEq {h : Heap} {c : CVal} {v : Value}
    (hsc : SafeC c) (hcv : cvalEq c (readVal h v) = true) : SafeVal h v := by
  cases v with
  | vInt n => trivial
  | vInt64 n => trivial
  | vBool b => trivial
  | vIntSlice ob =>
      cases ob with
      | none =>
          cases c with
          | cIntSlice oc =>
              have hc : CVal.cIntSlice oc = CVal.cIntSlice none :=
                eq_of_beq hcv
              injection hc with hc'
              subst hc'
              rcases hsc with ⟨xs, hxs, _⟩
              exact Option.noConfusion hxs
          | cInt _ => exact Bool.noConfusion hcv
          | cInt64 _ => exact Bool.noConfusion hcv
          | cInt64Slice _ => exact Bool.noConfusion hcv
          | cStrSlice _ => exact Bool.noConfusion hcv
          | cMap om =>
              cases om with
              | none => exact Bool.noConfusion hcv
              | some m1 => exact Bool.noConfusion hcv
          | cBool _ => exact Bool.noConfusion hcv
      | some c0 =>
          cases c with
          | cIntSlice oc =>
              have hc : CVal.cIntSlice oc =
                  CVal.cIntSlice (some (intsAt h c0)) := eq_of_beq hcv
              injection hc with hc'
              rcases hsc with ⟨xs, hxs, hne⟩
              rw [hxs] at hc'
              injection hc' with hc''
              exact ⟨c0, rfl, by rw [← hc'']; exact hne⟩
          | cInt _ => exact Bool.noConfusion hcv
          | cInt64 _ => exact Bool.noConfusion hcv
          | cInt64Slice _ => exact Bool.noConfusion hcv
          | cStrSlice _ => exact Bool.noConfusion hcv
          | cMap om =>
              cases om with
              | none => exact Bool.noConfusion hcv
              | some m1 => exact Bool.noConfusion hcv
          | cBool _ => exact Bool.noConfusion hcv
  | vInt64Slice ob =>
      cases ob with
      | none =>
          cases c with
          | cInt64Slice oc =>
              have hc : CVal.cInt64Slice oc = CVal.cInt64Slice none :=
                eq_of_beq hcv
              injection hc with hc'
              subst hc'
              rcases hsc with ⟨xs, hxs, _⟩
              exact Option.noConfusion hxs
          | cInt _ => exact Bool.noConfusion hcv
          | cInt64 _ => exact Bool.noConfusion hcv
          | cIntSlice _ => exact Bool.noConfusion hcv
          | cStrSlice _ => exact Bool.noConfusion hcv
          | cMap om =>
              cases om with
              | none => exact Bool.noConfusion hcv
              | some m1 => exact Bool.noConfusion hcv
          | cBool _ => exact Bool.noConfusion hcv
      | some c0 =>
          cases c with
          | cInt64Slice oc =>
              have hc : CVal.cInt64Slice oc =
                  CVal.cInt64Slice (some (intsAt h c0)) := eq_of_beq hcv
              injection hc with hc'
              rcases hsc with ⟨xs, hxs, hne⟩
              rw [hxs] at hc'
              injection hc' with hc''
              exact ⟨c0, rfl, by rw [← hc'']; exact hne⟩
          | cInt _ => exact Bool.noConfusion hcv
          | cInt64 _ => exact Bool.noConfusion hcv
          | cIntSlice _ => exact Bool.noConfusion hcv
          | cStrSlice _ => exact Bool.noConfusion hcv
          | cMap om =>
              cases om with
              | none => exact Bool.noConfusion hcv
              | some m1 => exact Bool.noConfusion hcv
          | cBool _ => exact Bool.noConfusion hcv
  | vStrSlice ob =>
      cases ob with
      | none =>
          cases c with
          | cStrSlice oc =>
              have hc : CVal.cStrSlice oc = CVal.cStrSlice none :=
                eq_of_beq hcv
              injection hc with hc'
              subst hc'
              rcases hsc with ⟨xs, hxs, _⟩
              exact Option.noConfusion hxs
          | cInt _ => exact Bool.noConfusion hcv
          | cInt64 _ => exact Bool.noConfusion hcv
          | cIntSlice _ => exact Bool.noConfusion hcv
          | cInt64Slice _ => exact Bool.noConfusion hcv
          | cMap om =>
              cases om with
              | none => exact Bool.noConfusion hcv
              | some m1 => exact Bool.noConfusion hcv
          | cBool _ => exact Bool.noConfusion hcv
      | some c0 =>
          cases c with
          | cStrSlice oc =>
              have hc : CVal.cStrSlice oc =
                  CVal.cStrSlice (some (strsAt h c0)) := eq_of_beq hcv
              injection hc with hc'
              rcases hsc with ⟨xs, hxs, hne⟩
              rw [hxs] at hc'
              injection hc' with hc''
              exact ⟨c0, rfl, by rw [← hc'']; exact hne⟩
          | cInt _ => exact Bool.noConfusion hcv
          | cInt64 _ => exact Bool.noConfusion hcv
          | cIntSlice _ => exact Bool.noConfusion hcv
          | cInt64Slice _ => exact Bool.noConfusion hcv
          | cMap om =>
              cases om with
              | none => exact Bool.noConfusion hcv
              | some m1 => exact Bool.noConfusion hcv
          | cBool _ => exact Bool.noConfusion hcv
  | vMap ob =>
      cases ob with
      | none => exact Or.inl rfl
      | some c0 =>
          cases c with
          | cMap oc =>
              cases oc with
              | none => exact Bool.noConfusion hcv
              | some m =>
                  rcases hsc with hl | ⟨m0, hm0, hm0ne⟩
                  · exact absurd hl (by simp)
                  · injection hm0 with hm0'
                    subst hm0'
                    have hlen := mapEqB_length hcv
                    have hne : mapAt h c0 ≠ [] := by
                      intro hcon
                      rw [hcon] at hlen
                      apply hm0ne
                      exact List.length_eq_zero.1 hlen
                    exact Or.inr ⟨c0, mapAt h c0, rfl, mapAt_inv rfl hne, hne⟩
          | cInt _ => exact Bool.noConfusion hcv
          | cInt64 _ => exact Bool.noConfusion hcv
          | cIntSlice _ => exact Bool.noConfusion hcv
          | cInt64Slice _ => exact Bool.noConfusion hcv
          | cStrSlice _ => exact Bool.noConfusion hcv
          | cBool _ => exact Bool.noConfusion hcv

/-- On a safe field value the embedded changer chain never panics: it
either declines (scalar categories only decline on foreign kinds) or
succeeds with a kind- and size-preserving write and a safe result. -/
theorem tryChangers_safe :
    ∀ (h : Heap) (v : Value), SafeVal h v →
      tryChangers embChangers h v = .declined ∨
      ∃ h' v', tryChangers embChangers h v = .ok h' v' ∧
        ChangerStep h h' ∧ SafeC (readVal h' v') := by
  intro h v hs
  cases v with
  | vInt n =>
      exact Or.inr ⟨h, .vInt (wrap64 (n * initialSeed)), rfl, Or.inl rfl,
        trivial⟩
  | vInt64 n =>
      exact Or.inr ⟨h, .vInt64 (wrap64 (n * initialSeed)), rfl, Or.inl rfl,
        trivial⟩
  | vBool b => exact Or.inl (embChangers_decline_vBool h b)
  | vIntSlice ob =>
      rcases hs with ⟨b, hob, hne⟩
      subst hob
      have hget0 : hGet h b = some (.oInts (intsAt h b)) := intsAt_inv rfl hne
      have hpos : 0 < (intsAt h b).length := List.length_pos.2 hne
      rcases hxl : (intsAt h b).get? ((intsAt h b).length - 1) with _ | x
      · rw [List.get?_eq_none] at hxl
        omega
      · have htc : tryChangers embChangers h (.vIntSlice (some b)) =
            .ok (hSet h b (.oInts ((intsAt h b).set ((intsAt h b).length - 1)
              (wrap64 (x * initialSeed))))) (.vIntSlice (some b)) := by
          simp only [tryChangers, embChangers, chInt, chInt64, chIntSlice,
            mulLastInts, hget0, hxl]
        have hlt : b < h.length := hGet_lt_length hget0
        refine Or.inr ⟨_, _, htc, ?_, ?_⟩
        · exact Or.inr ⟨b, Or.inl ⟨intsAt h b, _, hget0,
            (List.length_set _ _ _).symm, rfl⟩⟩
        · refine ⟨(intsAt h b).set ((intsAt h b).length - 1)
            (wrap64 (x * initialSeed)), ?_, ?_⟩
          · show some (intsAt (hSet h b _) b) = _
            unfold intsAt
            rw [hGet_set_self _ hlt]
          · intro hcon
            have hlc := congrArg List.length hcon
            rw [List.length_set] at hlc
            exact hne (List.length_eq_zero.1 hlc)
  | vInt64Slice ob =>
      rcases hs with ⟨b, hob, hne⟩
      subst hob
      have hget0 : hGet h b = some (.oInts (intsAt h b)) := intsAt_inv rfl hne
      have hpos : 0 < (intsAt h b).length := List.length_pos.2 hne
      rcases hxl : (intsAt h b).get? ((intsAt h b).length - 1) with _ | x
      · rw [List.get?_eq_none] at hxl
        omega
      · have htc : tryChangers embChangers h (.vInt64Slice (some b)) =
            .ok (hSet h b (.oInts ((intsAt h b).set ((intsAt h b).length - 1)
              (wrap64 (x * initialSeed))))) (.vInt64Slice (some b)) := by
          simp only [tryChangers, embChangers, chInt, chInt64, chIntSlice,
            chInt64Slice, mulLastInts, hget0, hxl]
        have hlt : b < h.length := hGet_lt_length hget0
        refine Or.inr ⟨_, _, htc, ?_, ?_⟩
        · exact Or.inr ⟨b, Or.inl ⟨intsAt h b, _, hget0,
            (List.length_set _ _ _).symm, rfl⟩⟩
        · refine ⟨(intsAt h b).set ((intsAt h b).length - 1)
            (wrap64 (x * initialSeed)), ?_, ?_⟩
          · show some (intsAt (hSet h b _) b) = _
            unfold intsAt
            rw [hGet_set_self _ hlt]
          · intro hcon
            have hlc := congrArg List.length hcon
            rw [List.length_set] at hlc
            exact hne (List.length_eq_zero.1 hlc)
  | vStrSlice ob =>
      rcases hs with ⟨b, hob, hne⟩
      subst hob
      have hget0 : hGet h b = some (.oStrs (strsAt h b)) := strsAt_inv rfl hne
      have hpos : 0 < (strsAt h b).length := List.length_pos.2 hne
      rcases hxl : (strsAt h b).get? ((strsAt h b).length - 1) with _ | x
      · rw [List.get?_eq_none] at hxl
        omega
      · have htc : tryChangers embChangers h (.vStrSlice (some b)) =
            .ok (hSet h b (.oStrs ((strsAt h b).set ((strsAt h b).length - 1)
              (x ++ x)))) (.vStrSlice (some b)) := by
          simp only [tryChangers, embChangers, chInt, chInt64, chIntSlice,
            chInt64Slice, chStrSlice, hget0, hxl]
        have hlt : b < h.length := hGet_lt_length hget0
        refine Or.inr ⟨_, _, htc, ?_, ?_⟩
        · exact Or.inr ⟨b, Or.inr (Or.inl ⟨strsAt h b, _, hget0,
            (List.length_set _ _ _).symm, rfl⟩)⟩
        · refine ⟨(strsAt h b).set ((strsAt h b).length - 1) (x ++ x), ?_, ?_⟩
          · show some (strsAt (hSet h b _) b) = _
            unfold strsAt
            rw [hGet_set_self _ hlt]
          · intro hcon
            have hlc := congrArg List.length hcon
            rw [List.length_set] at hlc
            exact hne (List.length_eq_zero.1 hlc)
  | vMap ob =>
      rcases hs with hnone | ⟨b, es, hob, hget0, hne⟩
      · subst hnone
        exact Or.inr ⟨h, .vMap none, rfl, Or.inl rfl, Or.inl rfl⟩
      · subst hob
        cases es with
        | nil => exact absurd rfl hne
        | cons kv rest =>
            obtain ⟨k0, n0⟩ := kv
            have htc : tryChangers embChangers h (.vMap (some b)) =
                .ok (hSet h b (.oMap ((k0, wrap64 (n0 * initialSeed)) :: rest)))
                  (.vMap (some b)) := by
              simp only [tryChangers, embChangers, chInt, chInt64, chIntSlice,
                chInt64Slice, chStrSlice, chMap, hget0]
            have hlt : b < h.length := hGet_lt_length hget0
            refine Or.inr ⟨_, _, htc, ?_, ?_⟩
            · exact Or.inr ⟨b, Or.inr (Or.inr ⟨(k0, n0) :: rest,
                (k0, wrap64 (n0 * initialSeed)) :: rest, hget0, rfl, rfl⟩)⟩
            · refine Or.inr ⟨(k0, wrap64 (n0 * initialSeed)) :: rest, ?_, ?_⟩
              · show some (mapAt (hSet h b _) b) = _
                unfold mapAt
                rw [hGet_set_self _ hlt]
              · exact List.cons_ne_nil _ _

/-- Soundness of `findIdx?` with an accumulator. -/
theorem findIdx?_sound {α : Type} (p : α → Bool) :
    ∀ (l : List α) (i k : Nat), List.findIdx? p l i = some k →
      i ≤ k ∧ ∃ x, l.get? (k - i) = some x ∧ p x = true := by
  intro l
  induction l with
  | nil =>
      intro i k hfind
      exact absurd hfind (by simp [List.findIdx?])
  | cons a rest ih =>
      intro i k hfind
      rcases hp : p a with _ | _
      · simp only [List.findIdx?, hp, Bool.false_eq_true, if_false] at hfind
        rcases ih (i + 1) k hfind with ⟨hik, x, hget, hpx⟩
        refine ⟨by omega, x, ?_, hpx⟩
        have hki : k - i = (k - (i + 1)) + 1 := by omega
        rw [hki]
        exact hget
      · simp only [List.findIdx?, hp, if_true] at hfind
        injection hfind with hfind'
        subst hfind'
        exact ⟨le_rfl, a, by simp, hp⟩

theorem findFieldIdx_sound {fs : List (String × Value)} {f : String} {k : Nat}
    (hfind : findFieldIdx fs f = some k) :
    ∃ nv, fs.get? k = some nv ∧ nv.1 = f := by
  unfold findFieldIdx at hfind
  rcases findIdx?_sound (fun nv => nv.1 = f) fs 0 k hfind with ⟨_, x, hget, hpx⟩
  rw [Nat.sub_zero] at hget
  exact ⟨x, hget, of_decide_eq_true hpx⟩

/-- Every value an embedded setter can produce has safe content. -/
theorem SafeC_pureCVal {t : Ty} {p : PureVal} (hs : PvalShape t p) :
    SafeC (pureCVal p) := by
  cases t with
  | tInt => cases p <;> first | exact False.elim hs | trivial
  | tInt64 => cases p <;> first | exact False.elim hs | trivial
  | tBool => cases p <;> exact False.elim hs
  | tIntSlice =>
      cases p <;> try exact False.elim hs
      next xs =>
        obtain ⟨hlen, _⟩ := hs
        refine ⟨xs, rfl, ?_⟩
        intro hcon
        rw [hcon] at hlen
        simp at hlen
  | tInt64Slice =>
      cases p <;> try exact False.elim hs
      next xs =>
        obtain ⟨hlen, _⟩ := hs
        refine ⟨xs, rfl, ?_⟩
        intro hcon
        rw [hcon] at hlen
        simp at hlen
  | tStrSlice =>
      cases p <;> try exact False.elim hs
      next xs =>
        obtain ⟨hlen, _⟩ := hs
        refine ⟨xs, rfl, ?_⟩
        intro hcon
        rw [hcon] at hlen
        simp at hlen
  | tMap =>
      cases p <;> try exact False.elim hs
      next es =>
        obtain ⟨hlen, hnd, _⟩ := hs
        have he1 : mapInsertAll [] es = es := by
          rw [mapInsertAll_of_nodup [] hnd (by simp)]
          exact List.nil_append es
        refine Or.inr ⟨mapInsertAll [] es, rfl, ?_⟩
        rw [he1]
        intro hcon
        rw [hcon] at hlen
        simp at hlen

theorem forall₂_mem_left {α β : Type} {R : α → β → Prop} {l1 : List α}
    {l2 : List β} (hf : List.Forall₂ R l1 l2) {a : α} (ha : a ∈ l1) :
    ∃ b ∈ l2, R a b := by
  induction hf with
  | nil => cases ha
  | cons hr _ ih =>
      cases ha with
      | head => exact ⟨_, by simp, hr⟩
      | tail _ ha' =>
          rcases ih ha' with ⟨b, hb, hbr⟩
          exact ⟨b, List.mem_cons_of_mem _ hb, hbr⟩

theorem deepEq_true_inv {h : Heap} {a b : Addr} (hde : deepEq h a b = true) :
    ∃ c1 c2, readStruct h a = some c1 ∧ readStruct h b = some c2 ∧
      cfieldsEq c1 c2 = true := by
  unfold deepEq at hde
  rcases h1 : readStruct h a with _ | c1 <;>
    rcases h2 : readStruct h b with _ | c2 <;> rw [h1, h2] at hde
  · exact absurd hde (by simp)
  · exact absurd hde (by simp)
  · exact absurd hde (by simp)
  · exact ⟨c1, c2, rfl, rfl, hde⟩

/-- One iteration of the per-field loop preserves the run invariant. -/
theorem InvAt_preserved {h1 h2 : Heap} {orig clone : Addr}
    {cfs : List (String × Value)} {idx : Nat} {n : String} {v' : Value}
    (hinv : InvAt h1 orig)
    (hclone : hGet h1 clone = some (.oStruct cfs))
    (hstep : ChangerStep h1 h2)
    (hsafe' : SafeC (readVal h2 v')) :
    InvAt (hSet h2 clone (.oStruct (cfs.set idx (n, v')))) orig := by
  rcases hinv with ⟨ofs, hofs, hsafe⟩
  have hstep' : HeapStep h1 h2 := ChangerStep_toHeapStep hstep
  have hcl2 : hGet h2 clone = some (.oStruct cfs) :=
    ChangerStep_struct hstep hclone
  have horig2 : hGet h2 orig = some (.oStruct ofs) :=
    ChangerStep_struct hstep hofs
  have hcllt : clone < h2.length := hGet_lt_length hcl2
  have hstep2 : HeapStep h2 (hSet h2 clone (.oStruct (cfs.set idx (n, v')))) :=
    Or.inr ⟨clone, _, _, hcl2, rfl, trivial⟩
  by_cases horcl : orig = clone
  · have hoc : cfs = ofs := by
      rw [horcl] at hofs
      rw [hclone] at hofs
      injection hofs with hofs'
      injection hofs' with hofs''
    refine ⟨cfs.set idx (n, v'), ?_, ?_⟩
    · rw [horcl]
      exact hGet_set_self _ hcllt
    · intro nv hnv hexp
      rcases List.mem_or_eq_of_mem_set hnv with hmem | heq
      · have hs1 : SafeC (readVal h1 nv.2) := by
          refine hsafe nv ?_ hexp
          rw [← hoc]
          exact hmem
        exact SafeC_step hstep2 (SafeC_step hstep' hs1)
      · subst heq
        exact SafeC_step hstep2 hsafe'
  · refine ⟨ofs, ?_, ?_⟩
    · rw [hGet_set_ne h2 clone orig _ (fun hh => horcl hh.symm)]
      exact horig2
    · intro nv hnv hexp
      exact SafeC_step hstep2 (SafeC_step hstep' (hsafe nv hnv hexp))

/-- The per-field loop never panics when it is given exported field names,
an original satisfying the run invariant, only built-in mutators and an
extension-only cloner. -/
theorem verifyFields_no_panic (cloner : Cloner)
    (hext : ∀ h0 a, ∃ ext, (cloner h0 a).1 = h0 ++ ext) :
    ∀ (flds : List String), (∀ g ∈ flds, isExported g = true) →
      ∀ (h : Heap) (orig ref : Addr), InvAt h orig →
        verifyFields [] cloner orig ref h flds ≠ .panicked := by
  intro flds
  induction flds with
  | nil =>
      intro _ h orig ref _ hcon
      exact VRes.noConfusion hcon
  | cons f rest ih =>
      intro hexp_all h orig ref hinv
      unfold verifyFields
      rcases hcl : cloner h orig with ⟨h1, clone⟩
      obtain ⟨ext, hextv⟩ := hext h orig
      rw [hcl] at hextv
      have hinv1 : InvAt h1 orig := by
        rw [show h1 = h ++ ext from hextv]
        exact InvAt_append ext hinv
      rcases hde : deepEq h1 orig clone with _ | _
      · simp [hde]
      · rcases hgc : hGet h1 clone with _ | o
        · have hac : autoChange [] h1 clone f = .errFieldNotFound := by
            simp only [autoChange, hgc]
          simp [hde, hac]
        · cases o with
          | oInts xs =>
              have hac : autoChange [] h1 clone f = .errFieldNotFound := by
                simp only [autoChange, hgc]
              simp [hde, hac]
          | oStrs xs =>
              have hac : autoChange [] h1 clone f = .errFieldNotFound := by
                simp only [autoChange, hgc]
              simp [hde, hac]
          | oMap es =>
              have hac : autoChange [] h1 clone f = .errFieldNotFound := by
                simp only [autoChange, hgc]
              simp [hde, hac]
          | oStruct cfs =>
              rcases hfi : findFieldIdx cfs f with _ | idx
              · have hac : autoChange [] h1 clone f = .errFieldNotFound := by
                  simp only [autoChange, hgc, hfi]
                simp [hde, hac]
              · rcases hgi : cfs.get? idx with _ | nv
                · have hac : autoChange [] h1 clone f = .errFieldNotFound := by
                    simp only [autoChange, hgc, hfi, hgi]
                  simp [hde, hac]
                · obtain ⟨n, cv⟩ := nv
                  rcases hinv1 with ⟨ofs, hofs, hsafe⟩
                  rcases deepEq_true_inv hde with ⟨c1, c2, hr1, hr2, hcf⟩
                  have hr1' : readStruct h1 orig =
                      some (ofs.map (fun nv0 => (nv0.1, readVal h1 nv0.2))) := by
                    unfold readStruct
                    rw [hofs]
                  have hr2' : readStruct h1 clone =
                      some (cfs.map (fun nv0 => (nv0.1, readVal h1 nv0.2))) := by
                    unfold readStruct
                    rw [hgc]
                  rw [hr1'] at hr1
                  rw [hr2'] at hr2
                  injection hr1 with hc1
                  injection hr2 with hc2
                  subst hc1
                  subst hc2
                  have hidxlt : idx < cfs.length := (List.get?_eq_some.1 hgi).1
                  have hlenoc : ofs.length = cfs.length := by
                    have hll := cfieldsEq_length hcf
                    simpa using hll
                  have hidxlt' : idx < ofs.length := by omega
                  have hx1 : (ofs.map
                      (fun nv0 => (nv0.1, readVal h1 nv0.2))).get? idx =
                      some ((ofs.get ⟨idx, hidxlt'⟩).1,
                        readVal h1 (ofs.get ⟨idx, hidxlt'⟩).2) := by
                    rw [List.get?_map, List.get?_eq_get hidxlt']
                    rfl
                  have hx2 : (cfs.map
                      (fun nv0 => (nv0.1, readVal h1 nv0.2))).get? idx =
                      some (n, readVal h1 cv) := by
                    rw [List.get?_map, hgi]
                    rfl
                  have hpw := cfieldsEq_pointwise hcf idx _ _ hx1 hx2
                  have hnf : n = f := by
                    rcases findFieldIdx_sound hfi with ⟨nv1, hg1, hn1⟩
                    rw [hgi] at hg1
                    injection hg1 with hg1'
                    rw [← hg1'] at hn1
                    exact hn1
                  have hexpofs : isExported (ofs.get ⟨idx, hidxlt'⟩).1 =
                      true := by
                    rw [hpw.1, hnf]
                    exact hexp_all f (by simp)
                  have hsc : SafeC (readVal h1 (ofs.get ⟨idx, hidxlt'⟩).2) :=
                    hsafe _ (List.get_mem ofs idx hidxlt') hexpofs
                  have hsv : SafeVal h1 cv := safeVal_of_cvalEq hsc hpw.2
                  rcases tryChangers_safe h1 cv hsv with htd |
                    ⟨h2, v', htc, hstep, hsafe'⟩
                  · have hac : autoChange [] h1 clone f = .errChange := by
                      simp only [autoChange, hgc, hfi, hgi, List.nil_append,
                        htd]
                    simp [hde, hac]
                  · have hac : autoChange [] h1 clone f =
                        .ok (hSet h2 clone (.oStruct (cfs.set idx (n, v')))) := by
                      simp only [autoChange, hgc, hfi, hgi, List.nil_append,
                        htc]
                    have hinv3 : InvAt
                        (hSet h2 clone (.oStruct (cfs.set idx (n, v')))) orig :=
                      InvAt_preserved ⟨ofs, hofs, hsafe⟩ hgc hstep hsafe'
                    rcases hde2 : deepEq
                        (hSet h2 clone (.oStruct (cfs.set idx (n, v'))))
                        orig ref with _ | _
                    · simp [hde, hac, hde2]
                    · rcases hde3 : deepEq
                          (hSet h2 clone (.oStruct (cfs.set idx (n, v'))))
                          orig clone with _ | _
                      · simpa [hde, hac, hde2, hde3] using
                          ih (fun g hg => hexp_all g (List.mem_cons_of_mem f hg))
                            (hSet h2 clone (.oStruct (cfs.set idx (n, v'))))
                            orig ref hinv3
                      · simp [hde, hac, hde2, hde3]

/-- Counterexample to C10 as stated: a cloner that destroys the
original's slice backing makes the post-copy gate pass trivially (the
truncated original is compared against itself through the aliased clone),
and the slice mutator then reaches the out-of-bounds branch — so a
`Verify` run using only built-in handlers can panic. -/
theorem destructive_cloner_reaches_slice_panic :
    Verify [("S", Ty.tInt64Slice)] noUserSetters [] truncCloner =
      .panicked := by
  decide

/-- C10 (amended: the cloner must be extension-only, i.e. never modify
existing objects, as every real Go clone function is): the slice mutators
index `length - 1` without an emptiness guard, which is in bounds on
non-empty backing; every slice an embedded setter produces has length at
least 2; and a `Verify` run with only built-in handlers and an
extension-only cloner never reaches the out-of-bounds branch, so it never
panics. -/
theorem slice_mutators_safe_in_builtin_runs :
    (∀ (h : Heap) (b : Addr) (xs : List Int) (v : Value),
      hGet h b = some (.oInts xs) → xs ≠ [] →
      mulLastInts h (some b) v ≠ .panicked) ∧
    (∀ (h : Heap) (b : Addr) (xs : List String),
      hGet h b = some (.oStrs xs) → xs ≠ [] →
      chStrSlice h (.vStrSlice (some b)) ≠ .panicked) ∧
    (∀ (est : EmbSt) (t : Ty) (p : PureVal) (est' : EmbSt), StOK est →
      embTry est t = some (p, est') →
      (∀ xs, p = .pIntSlice xs → 2 ≤ xs.length) ∧
      (∀ xs, p = .pInt64Slice xs → 2 ≤ xs.length) ∧
      (∀ xs, p = .pStrSlice xs → 2 ≤ xs.length)) ∧
    (∀ (ty : List (String × Ty)) (cloner : Cloner),
      (∀ h a, ∃ ext, (cloner h a).1 = h ++ ext) →
      Verify ty noUserSetters [] cloner ≠ .panicked) := by
  refine ⟨?_, ?_, ?_, ?_⟩
  · intro h b xs v hget hne
    have hpos : 0 < xs.length := List.length_pos.2 hne
    rcases hxl : xs.get? (xs.length - 1) with _ | x
    · rw [List.get?_eq_none] at hxl
      omega
    · intro hcon
      simp only [mulLastInts, hget, hxl] at hcon
      exact CRes.noConfusion hcon
  · intro h b xs hget hne
    have hpos : 0 < xs.length := List.length_pos.2 hne
    rcases hxl : xs.get? (xs.length - 1) with _ | x
    · rw [List.get?_eq_none] at hxl
      omega
    · intro hcon
      simp only [chStrSlice, hget, hxl] at hcon
      exact CRes.noConfusion hcon
  · intro est t p est' hok htry
    have hshape := embTry_shape hok htry
    refine ⟨?_, ?_, ?_⟩
    · intro xs hpx
      subst hpx
      cases t <;> try exact False.elim hshape
      exact hshape.1
    · intro xs hpx
      subst hpx
      cases t <;> try exact False.elim hshape
      exact hshape.1
    · intro xs hpx
      subst hpx
      cases t <;> try exact False.elim hshape
      exact hshape.1
  · intro ty cloner hextc
    unfold Verify
    rcases hf1 : autoFill noUserSetters ty [] with _ | ⟨h1, orig⟩
    · simp
    · rcases hf2 : autoFill noUserSetters ty h1 with _ | ⟨h2, ref⟩
      · simp [hf2]
      · rcases hdeg : deepEq h2 orig ref with _ | _
        · simp [hf2, hdeg]
        · rcases autoFill_spec hf1 with ⟨_, _, gs, fs, hgen, hget1, hforall1⟩
          have hagree12 : ∀ x, x < h1.length → hGet h2 x = hGet h1 x := by
            rcases autoFill_spec hf2 with ⟨_, ⟨ext2, hext2⟩, _, _, _, _, _⟩
            intro x hx
            rw [hext2]
            exact hGet_append_left ext2 hx
          have hget1' : hGet h2 orig = some (.oStruct fs) := by
            rw [hagree12 orig (hGet_lt_length hget1)]
            exact hget1
          have hforall1' : List.Forall₂ (FieldSpec 1 h1.length h2) fs gs :=
            hforall1.imp (fun {nv} {g} hs => FieldSpec_ext hagree12 hs)
          have hfm := genVals_builtin_shape ty noUserSetters.init gs hgen
          have hinv : InvAt h2 orig := by
            refine ⟨fs, hget1', ?_⟩
            intro nv hnv hexp
            rcases forall₂_mem_left hforall1' hnv with ⟨g, hgmem, hspec⟩
            rcases forall₂_mem_right hfm hgmem with ⟨nt, _, hpred⟩
            have hexpg : isExported nt.1 = true := by
              rw [← hpred.1, ← hspec.1]
              exact hexp
            rcases hpred.2.2.2 hexpg with ⟨p, hp, hshape, _, _⟩
            have hread : readVal h2 nv.2 = pureCVal p := by
              have hg2 := hspec.2.2
              unfold gContent at hg2
              rw [hp] at hg2
              exact hg2
            rw [hread]
            exact SafeC_pureCVal hshape
          have hsf : structFields ty =
              (ty.filter (fun nt => isExported nt.1)).map Prod.fst := by
            show structFieldsLoop [] ty = _
            rw [structFieldsLoop_eq ty []]
            rfl
          have hexp_all : ∀ g ∈ structFields ty, isExported g = true := by
            intro g hg
            rw [hsf] at hg
            rcases List.mem_map.1 hg with ⟨nt, hntmem, hnt1⟩
            rw [← hnt1]
            exact (List.mem_filter.1 hntmem).2
          have hnp := verifyFields_no_panic cloner hextc (structFields ty)
            hexp_all h2 orig ref hinv
          simpa [hf2, hdeg] using hnp

/-- Witness for the amended C10: an in-bounds last-element access on a
two-element backing, and a panic-free `Verify` run with the identity
cloner (which is extension-only with the empty extension). -/
theorem slice_mutators_safe_in_builtin_runs_witness :
    mulLastInts [.oInts [1, 2]] (some 0) (.vIntSlice (some 0)) ≠
      .panicked ∧
    Verify [("A", Ty.tInt64Slice)] noUserSetters [] idCloner ≠ .panicked :=
  ⟨slice_mutators_safe_in_builtin_runs.1 [.oInts [1, 2]] 0 [1, 2]
      (.vIntSlice (some 0)) (by decide) (by decide),
    slice_mutators_safe_in_builtin_runs.2.2.2 [("A", Ty.tInt64Slice)] idCloner
      (fun h a => ⟨[], (List.append_nil h).symm⟩)⟩

end CloneVerif
